import Mathlib

set_option maxRecDepth 8000

/-!
Verification of the single-step price search application
(`streamlit_app.py`).  The file embeds the program's core logic —
response extraction (regex search plus JSON parsing), the query
orchestrator's failure normalisation, prompt construction, price-suffix
display and the session history store — as executable Lean definitions,
and proves the specification's claims about them.

Python strings are modelled as `List Char` (wrapped in `String` at the
API edges), parsed JSON values as the inductive `Json`, and the single
external model-service call as an `Except String String` argument (error
= transport failure, ok = raw response text).
-/

namespace PriceSearch

/-! ## Characters and whitespace

`isJsonWs` is the whitespace accepted by Python's `json` module between
tokens (JSON specification whitespace).  `isReWs` is the ASCII fragment
of the character class `\s` used by `re` in the extraction pattern; the
inputs reasoned about below contain no non-ASCII whitespace, so the
ASCII fragment is faithful on them. -/

def lbrace : Char := Char.ofNat 123

def rbrace : Char := Char.ofNat 125

def isJsonWs (c : Char) : Bool :=
  c = ' ' || c = '\t' || c = '\n' || c = '\r'

def isReWs (c : Char) : Bool :=
  c = ' ' || c = '\t' || c = '\n' || c = '\r' || c = Char.ofNat 11 || c = Char.ofNat 12

def skipWs : List Char → List Char
  | [] => []
  | c :: t => if isJsonWs c then skipWs t else c :: t

def isDigit (c : Char) : Bool :=
  '0' ≤ c && c ≤ '9'

/-! ## JSON values

The result of `json.loads`.  Numbers are represented syntactically as a
scaled integer: `num m e` stands for the literal whose value is
`m / 10 ^ e` written with exactly `e` fractional digits (so `1.5` parses
to `num 15 1` and `2.10` to `num 210 2`); this captures everything the
program does with numbers.  Object members keep their textual order. -/

inductive Json where
  | null : Json
  | bool : Bool → Json
  | num : Int → Nat → Json
  | str : String → Json
  | arr : List Json → Json
  | obj : List (String × Json) → Json

/-! ## The JSON parser (model of `json.loads`)

A recursive-descent parser over `List Char` with an explicit fuel
argument for structural termination; `jsonParseList` supplies fuel
`length + 1`, which is always sufficient because every recursive call
consumes at least one character first.  The grammar follows Python's
`json` module in strict mode: JSON whitespace between tokens, no
trailing commas, string keys only, no leading zeros in numbers, raw
control characters rejected inside strings.  (Escape sequences beyond
the ones below, exponent notation and `NaN`/`Infinity` are accepted by
Python but rejected here; on every input reasoned about in this file
both parsers fail alike on such text, since the offending token is
always followed by unconsumable trailing data.) -/

def expectLit : List Char → List Char → Option (List Char)
  | [], s => some s
  | _ :: _, [] => none
  | a :: l, c :: s => if c = a then expectLit l s else none

def unescape (c : Char) : Option Char :=
  if c = '"' then some '"'
  else if c = '\\' then some '\\'
  else if c = '/' then some '/'
  else if c = 'n' then some '\n'
  else if c = 't' then some '\t'
  else if c = 'r' then some '\r'
  else if c = 'b' then some (Char.ofNat 8)
  else if c = 'f' then some (Char.ofNat 12)
  else none

def parseStrBody : List Char → Option (List Char × List Char)
  | [] => none
  | c :: t =>
    if c = '"' then some ([], t)
    else if c = '\\' then
      match t with
      | [] => none
      | e :: t2 =>
        match unescape e with
        | some d => (parseStrBody t2).map (fun p => (d :: p.1, p.2))
        | none => none
    else if c.toNat < 32 then none
    else (parseStrBody t).map (fun p => (c :: p.1, p.2))

def digitChar (n : Nat) : Char :=
  match n with
  | 0 => '0' | 1 => '1' | 2 => '2' | 3 => '3' | 4 => '4'
  | 5 => '5' | 6 => '6' | 7 => '7' | 8 => '8' | _ => '9'

def digitVal (c : Char) : Nat := c.toNat - 48

def digitRunAux : List Char → Nat → Nat → Nat × Nat × List Char
  | [], acc, len => (acc, len, [])
  | c :: t, acc, len =>
    if isDigit c then digitRunAux t (acc * 10 + digitVal c) (len + 1) else (acc, len, c :: t)

def parseIntPart : List Char → Option (Nat × List Char)
  | [] => none
  | c :: t =>
    if c = '0' then some (0, t)
    else if isDigit c then
      match digitRunAux t (digitVal c) 1 with
      | (v, _, r) => some (v, r)
    else none

def lexUNum (s : List Char) : Option (Nat × Nat × List Char) :=
  match parseIntPart s with
  | none => none
  | some (n, r) =>
    match r with
    | [] => some (n, 0, [])
    | c :: r2 =>
      if c = '.' then
        match digitRunAux r2 0 0 with
        | (v, len, r3) => if len = 0 then none else some (n * 10 ^ len + v, len, r3)
      else some (n, 0, c :: r2)

def lexNum : List Char → Option (Json × List Char)
  | [] => none
  | c :: t =>
    if c = '-' then
      match lexUNum t with
      | some (m, e, r) => some (.num (-(m : Int)) e, r)
      | none => none
    else
      match lexUNum (c :: t) with
      | some (m, e, r) => some (.num (m : Int) e, r)
      | none => none

mutual

def parseVal : Nat → List Char → Option (Json × List Char)
  | 0, _ => none
  | f+1, s =>
    match s with
    | [] => none
    | c :: t =>
      if c = '"' then (parseStrBody t).map (fun p => (Json.str (String.mk p.1), p.2))
      else if c = '[' then
        match skipWs t with
        | [] => none
        | d :: r =>
          if d = ']' then some (Json.arr [], r)
          else (parseItems f (d :: r)).map (fun p => (Json.arr p.1, p.2))
      else if c = lbrace then
        match skipWs t with
        | [] => none
        | d :: r =>
          if d = rbrace then some (Json.obj [], r)
          else (parseMems f (d :: r)).map (fun p => (Json.obj p.1, p.2))
      else if c = 't' then (expectLit ['r', 'u', 'e'] t).map (fun r => (Json.bool true, r))
      else if c = 'f' then (expectLit ['a', 'l', 's', 'e'] t).map (fun r => (Json.bool false, r))
      else if c = 'n' then (expectLit ['u', 'l', 'l'] t).map (fun r => (Json.null, r))
      else if c = '-' || isDigit c then lexNum (c :: t)
      else none

def parseItems : Nat → List Char → Option (List Json × List Char)
  | 0, _ => none
  | f+1, s =>
    match parseVal f s with
    | none => none
    | some (v, r) =>
      match skipWs r with
      | [] => none
      | d :: r2 =>
        if d = ',' then (parseItems f (skipWs r2)).map (fun p => (v :: p.1, p.2))
        else if d = ']' then some ([v], r2)
        else none

def parseMems : Nat → List Char → Option (List (String × Json) × List Char)
  | 0, _ => none
  | f+1, s =>
    match s with
    | [] => none
    | c :: t =>
      if c = '"' then
        match parseStrBody t with
        | none => none
        | some (k, r) =>
          match skipWs r with
          | [] => none
          | d :: r2 =>
            if d = ':' then
              match parseVal f (skipWs r2) with
              | none => none
              | some (v, r3) =>
                match skipWs r3 with
                | [] => none
                | e :: r4 =>
                  if e = ',' then
                    (parseMems f (skipWs r4)).map (fun p => ((String.mk k, v) :: p.1, p.2))
                  else if e = rbrace then some ([(String.mk k, v)], r4)
                  else none
            else none
      else none

end

def jsonParseList (s : List Char) : Option Json :=
  match parseVal (s.length + 1) (skipWs s) with
  | some (v, r) => if skipWs r = [] then some v else none
  | none => none

/-! ## The extraction pattern (model of the `re.search` call)

The source searches the raw response with
`re.search(r'(\[\s*{.*}\s*\]|\{\s*"products"\s*:\s*\[.*\]\s*\})', text, re.DOTALL)`.
The model implements exactly this pattern's semantics: leftmost match
position, first alternative preferred at equal positions, `.` matching
every character (DOTALL), and the greedy `.*` extending to the last
position from which the closing `}\s*]` (resp. `]\s*}`) still matches.
The runs matched by `\s*` are determinate because each is followed by a
non-whitespace literal. -/

def wsThen (b : Char) (s : List Char) : Option (List Char × List Char) :=
  match s.dropWhile isReWs with
  | [] => none
  | c :: r => if c = b then some (s.takeWhile isReWs ++ [b], r) else none

def greedyTail (a b : Char) : List Char → Option (List Char × List Char)
  | [] => none
  | c :: t =>
    match greedyTail a b t with
    | some (m, r) => some (c :: m, r)
    | none =>
      if c = a then
        match wsThen b t with
        | some (w, r) => some (c :: w, r)
        | none => none
      else none

def matchAlt1 : List Char → Option (List Char)
  | [] => none
  | c :: t =>
    if c = '[' then
      match t.dropWhile isReWs with
      | [] => none
      | d :: u =>
        if d = lbrace then
          match greedyTail rbrace ']' u with
          | some (m, _) => some (c :: t.takeWhile isReWs ++ d :: m)
          | none => none
        else none
    else none

def prodLit : List Char := '"' :: ['p', 'r', 'o', 'd', 'u', 'c', 't', 's'] ++ ['"']

def matchAlt2 : List Char → Option (List Char)
  | [] => none
  | c :: t =>
    if c = lbrace then
      match expectLit prodLit (t.dropWhile isReWs) with
      | none => none
      | some u1 =>
        match u1.dropWhile isReWs with
        | [] => none
        | d :: u2 =>
          if d = ':' then
            match u2.dropWhile isReWs with
            | [] => none
            | e :: u3 =>
              if e = '[' then
                match greedyTail ']' rbrace u3 with
                | some (m, _) =>
                  some (c :: t.takeWhile isReWs ++ prodLit ++ u1.takeWhile isReWs ++
                        d :: u2.takeWhile isReWs ++ e :: m)
                | none => none
              else none
          else none
    else none

def findJsonMatch : List Char → Option (List Char)
  | [] => none
  | c :: t =>
    match matchAlt1 (c :: t) with
    | some m => some m
    | none =>
      match matchAlt2 (c :: t) with
      | some m => some m
      | none => findJsonMatch t

/-! ## Extraction (`search_and_analyze_products` lines 184-203)

`extractCore` is the response-processing block: search for the pattern,
parse the matched substring if found and the whole text otherwise,
then unwrap a `"products"` envelope.  A hard parse failure surfaces as
`Except.error` carrying the parser's complaint; Python's
`json.JSONDecodeError` message text is abstracted to a fixed non-empty
cause string. -/

def decodeFailMsg : String := "Expecting value"

def lookupKey : List (String × Json) → String → Option Json
  | [], _ => none
  | (k, v) :: t, key => if k = key then some v else lookupKey t key

def pickProducts (v : Json) : Json :=
  match v with
  | .obj kvs =>
    match lookupKey kvs "products" with
    | some w => w
    | none => .obj kvs
  | _ => v

def extractCore (raw : List Char) : Except String Json :=
  match findJsonMatch raw with
  | some m =>
    match jsonParseList m with
    | some v => .ok (pickProducts v)
    | none => .error decodeFailMsg
  | none =>
    match jsonParseList raw with
    | some v => .ok (pickProducts v)
    | none => .error decodeFailMsg

def extractJson (responseText : String) : Except String Json :=
  extractCore responseText.toList

/-! ## The query orchestrator (`search_and_analyze_products` lines 160-207)

The single external chat-completions call is modelled by its outcome:
`Except.error cause` for a transport-level failure (the outer `except`),
`Except.ok text` for a successful response whose content is `text`.
The function returns the value of `products_json` together with the
diagnostic passed to `st.error`, if any. -/

def apiFailPrefix : String := "API request failed: "

def parseFailPrefix : String := "Could not parse JSON from API response: "

def searchAndAnalyzeProducts (svcResponse : Except String String) : Json × Option String :=
  match svcResponse with
  | .error e => (.arr [], some (apiFailPrefix ++ e))
  | .ok text =>
    match extractJson text with
    | .ok v => (v, none)
    | .error cause => (.arr [], some (parseFailPrefix ++ cause))

/-! ## Python truthiness of a parsed JSON value (`if all_products:`) -/

def jsonTruthy : Json → Bool
  | .null => false
  | .bool b => b
  | .num m _ => m != 0
  | .str s => s != ""
  | .arr xs => !xs.isEmpty
  | .obj kvs => !kvs.isEmpty

/-! ## History store and the search-button handler (lines 286-320) -/

structure HistoryEntry where
  timestamp : String
  category : String
  productName : String
  techSpec : String
  priceCalcObjective : String
  results : Json

def appendHistory (history : List HistoryEntry) (entry : HistoryEntry) : List HistoryEntry :=
  history ++ [entry]

def historyDisplay (history : List HistoryEntry) : List HistoryEntry :=
  history.reverse

def handleSearchCompletion (history : List HistoryEntry)
    (timestamp category productName techSpec priceCalcObjective : String)
    (allProducts : Json) : List HistoryEntry :=
  if jsonTruthy allProducts then
    appendHistory history
      ⟨timestamp, category, productName, techSpec, priceCalcObjective, allProducts⟩
  else history

/-! ## JSON serialisation

Used to state the specification's round-trip properties ("for any
well-formed product array serialized to JSON ...").  The serialiser
emits canonical compact JSON: no whitespace, strings with `"` and `\`
escaped, numbers as the scaled-integer literal they denote.
Well-formedness (`wfJson`) asks only that strings contain no control
characters, so that the escapes above suffice. -/

def natDigitsAux : Nat → Nat → List Char → List Char
  | 0, _, acc => acc
  | f+1, n, acc =>
    if n < 10 then digitChar n :: acc
    else natDigitsAux f (n / 10) (digitChar (n % 10) :: acc)

def natDigits (n : Nat) : List Char := natDigitsAux (n + 1) n []

def padDigits (e k : Nat) : List Char :=
  List.replicate (e - (natDigits k).length) '0' ++ natDigits k

def serUNum (a e : Nat) : List Char :=
  if e = 0 then natDigits a
  else natDigits (a / 10 ^ e) ++ '.' :: padDigits e (a % 10 ^ e)

def serNum (m : Int) (e : Nat) : List Char :=
  (if m < 0 then ['-'] else []) ++ serUNum m.natAbs e

def escChar (c : Char) : List Char :=
  if c = '"' then ['\\', '"']
  else if c = '\\' then ['\\', '\\']
  else [c]

def escStr : List Char → List Char
  | [] => []
  | c :: t => escChar c ++ escStr t

mutual

def ser : Json → List Char
  | .num m e => serNum m e
  | .null => ['n', 'u', 'l', 'l']
  | .bool b => if b then ['t', 'r', 'u', 'e'] else ['f', 'a', 'l', 's', 'e']
  | .str s => '"' :: escStr s.data ++ ['"']
  | .arr xs => '[' :: serItemsL xs ++ [']']
  | .obj kvs => lbrace :: serMemsL kvs ++ [rbrace]

def serItemsL : List Json → List Char
  | [] => []
  | [x] => ser x
  | x :: y :: t => ser x ++ ',' :: serItemsL (y :: t)

def serMemsL : List (String × Json) → List Char
  | [] => []
  | [(k, v)] => '"' :: escStr k.data ++ '"' :: ':' :: ser v
  | (k, v) :: m :: t => ('"' :: escStr k.data ++ '"' :: ':' :: ser v) ++ ',' :: serMemsL (m :: t)

end

def wfStrL (s : List Char) : Bool := s.all (fun c => 32 ≤ c.toNat)

mutual

def wfJson : Json → Bool
  | .null => true
  | .bool _ => true
  | .num _ _ => true
  | .str s => wfStrL s.data
  | .arr xs => wfL xs
  | .obj kvs => wfM kvs

def wfL : List Json → Bool
  | [] => true
  | x :: t => wfJson x && wfL t

def wfM : List (String × Json) → Bool
  | [] => true
  | (k, v) :: t => wfStrL k.data && wfJson v && wfM t

end

/-! Fuel bound: a successful parse of `ser v` needs at most `jsize v` fuel. -/

mutual

def jsize : Json → Nat
  | .arr xs => 1 + jsizeL xs
  | .obj kvs => 1 + jsizeM kvs
  | _ => 1

def jsizeL : List Json → Nat
  | [] => 0
  | x :: t => 1 + max (jsize x) (jsizeL t)

def jsizeM : List (String × Json) → Nat
  | [] => 0
  | (_, v) :: t => 1 + max (jsize v) (jsizeM t)

end

/-! ## Price-suffix display (`display_results` lines 220-237, repeated at
lines 250-265 and, for the history tab, lines 352-366; all three sites
run the identical suffix computation modelled here). -/

/-- Python `str()` of a parsed JSON value, as interpolated by the
f-string `f"/{product['unit_type']}"`.  Faithful for strings, booleans
and `None`; floats and containers are approximated by their JSON
serialisation (the claims only exercise string-valued labels). -/
def pyStr : Json → String
  | .str s => s
  | .bool true => "True"
  | .bool false => "False"
  | .null => "None"
  | w => String.mk (ser w)

def hasKey (product : List (String × Json)) (key : String) : Bool :=
  (lookupKey product key).isSome

def getKey (product : List (String × Json)) (key : String) : Json :=
  (lookupKey product key).getD .null

def unitDisplay (priceCalcObjective : String) (product : List (String × Json)) : String :=
  if priceCalcObjective = "unit" && hasKey product "unit_type" then
    "/" ++ pyStr (getKey product "unit_type")
  else if priceCalcObjective = "kg" then "/kg"
  else if priceCalcObjective = "liter" then "/L"
  else if priceCalcObjective = "package" then "/pkg"
  else ""

/-! ## The prompt builder (`search_and_analyze_products` lines 100-158)

The request record gathers the five widget values; `customCalcUnit` is
`none` when the unit text box was never shown and carries the (possibly
empty) box contents otherwise.  The literals below transcribe the
Python f-strings verbatim. -/

structure SearchRequest where
  category : String
  productName : String
  techSpec : String
  priceCalcObjective : String
  customCalcUnit : Option String

def validObjective (o : String) : Prop :=
  o = "none" ∨ o = "unit" ∨ o = "kg" ∨ o = "liter" ∨ o = "package"

/-- `custom_calc_unit if custom_calc_unit else "unit"` (empty string and
`None` are both falsy). -/
def unitTypeLabel (r : SearchRequest) : String :=
  match r.customCalcUnit with
  | some s => if s = "" then "unit" else s
  | none => "unit"

def promptHead1 : String := "\n        Analyze the Lithuanian market for "

def promptHead2 : String :=
  " and gather detailed product information according to the following:\n                     product name: "

def promptHead3 : String := "\n                     product specification: "

def promptHead4 : String :=
  "\n\n        2. Verify the product is currently available for purchase\n        3. Gather accurate pricing in EUR\n        4. Evaluate technical specification requirements one by one\n        "

def objectiveDirective (r : SearchRequest) : String :=
  if r.priceCalcObjective = "none" then ""
  else if r.priceCalcObjective = "unit" then
    "\n5. Calculate and include price per " ++ unitTypeLabel r ++ " for each product"
  else if r.priceCalcObjective = "kg" then
    "\n5. Calculate and include price per kilogram for each product"
  else if r.priceCalcObjective = "liter" then
    "\n5. Calculate and include price per liter for each product"
  else if r.priceCalcObjective = "package" then
    "\n5. Calculate and include price per package for each product"
  else ""

def promptJsonInstr : String :=
  "\n        IMPORTANT: Your response MUST be formatted EXACTLY as a valid JSON array of product objects.\n        Each product in the array should have the following fields:\n\n        [\n          \x7b\n            \"provider\": \"Company selling the product\",\n            \"provider_website\": \"Main website domain (e.g., telia.lt)\",\n            \"provider_url\": \"Full URL to the specific product page\",\n            \"product_name\": \"Complete product name with model\",\n            \"product_properties\": \x7b\n              \"key_spec1\": \"value1\",\n              \"key_spec2\": \"value2\"\n            \x7d,\n            \"product_sku\": \"Any product identifiers (SKU, UPC, model number)\",\n            \"product_price\": 299.99,\n        "

def priceFieldPart (r : SearchRequest) : String :=
  if r.priceCalcObjective = "none" then ""
  else
    "\n            \"price_per_" ++ r.priceCalcObjective ++ "\": 9.99," ++
    (if r.priceCalcObjective = "unit" then
      match r.customCalcUnit with
      | some s => if s = "" then "" else "\n            \"unit_type\": \"" ++ s ++ "\","
      | none => ""
    else "")

def promptTail : String :=
  "\n            \"evaluation\": \"Detailed assessment of how the product meets or fails each technical specification\"\n          \x7d\n        ]\n\n        DO NOT include any explanation, preamble, or additional text - ONLY provide the JSON array.\n        "

def buildPrompt (r : SearchRequest) : String :=
  promptHead1 ++ r.category ++ promptHead2 ++ r.productName ++ promptHead3 ++ r.techSpec ++
    promptHead4 ++ objectiveDirective r ++ promptJsonInstr ++ priceFieldPart r ++ promptTail

/-! ## Substring containment

`InfixOf p s` states that `p` occurs contiguously inside `s`;
`isSubLB` is the executable check used on concrete inputs. -/

def InfixOf (p s : List Char) : Prop := ∃ u v, s = u ++ p ++ v

def strContains (s pat : String) : Prop := InfixOf pat.toList s.toList

def isPrefB : List Char → List Char → Bool
  | [], _ => true
  | _ :: _, [] => false
  | a :: p, c :: t => a == c && isPrefB p t

def isSubLB : List Char → List Char → Bool
  | p, [] => p.isEmpty
  | p, c :: t => isPrefB p (c :: t) || isSubLB p t

/-! ## Underscore-context windows

Infrastructure for the prompt-builder claim.  `noRUN a b c` rules out
the three-character window `r_n`; it holds of every window of the
objective-free prompt (checked on the literals, and trivially on
underscore-free user fields), while `price_per_none` contains that
window — so the prompt cannot contain `price_per_none`. -/

def noRUN (a b c : Char) : Bool := !(a == 'r' && b == '_' && c == 'n')

def win3Ok : List Char → Bool
  | a :: b :: c :: t => noRUN a b c && win3Ok (b :: c :: t)
  | _ => true

def uSafe (x : List Char) : Prop :=
  win3Ok x = true ∧ x.head? ≠ some '_' ∧ x.getLast? ≠ some '_'

/-- The next character (if any) cannot extend a digit run. -/
def headND (r : List Char) : Prop :=
  ∀ c, r.head? = some c → isDigit c = false

/-- The next character (if any) cannot extend a number literal. -/
def headNDD (r : List Char) : Prop :=
  ∀ c, r.head? = some c → isDigit c = false ∧ c ≠ '.'

def isObjB : Json → Bool
  | .obj _ => true
  | _ => false

def isOkB : Except String Json → Bool
  | .ok _ => true
  | .error _ => false

/-- `numGuard v r`: when `v` is a number, the serialised context must not
let the following characters extend the numeric literal. -/
def numGuard : Json → List Char → Prop
  | .num _ _, r => headNDD r
  | _, _ => True

/-! ## Concrete inputs named by the specification -/

/-- The object-envelope test input from the specification. -/
def envelopeInput : String :=
  "Here is the result: \x7b\"products\": [\x7b\"provider\":\"A\",\"providerWebsite\":\"a.lt\",\"providerUrl\":\"\",\"productName\":\"X\",\"productProperties\":\x7b\x7d,\"productSku\":\"\",\"productPrice\":1.5,\"evaluation\":\"ok\"\x7d]\x7d Thanks"

/-- The fields of the single product inside `envelopeInput`. -/
def envelopeFields : List (String × Json) :=
  [("provider", Json.str "A"), ("providerWebsite", Json.str "a.lt"),
   ("providerUrl", Json.str ""), ("productName", Json.str "X"),
   ("productProperties", Json.obj []), ("productSku", Json.str ""),
   ("productPrice", Json.num 15 1), ("evaluation", Json.str "ok")]

def envelopeProduct : Json := Json.obj envelopeFields

/-! # Theorems -/

section Claims

/-! ## History store -/

theorem foldl_appendHistory (es : List HistoryEntry) :
    ∀ acc : List HistoryEntry, es.foldl appendHistory acc = acc ++ es := by
  induction es with
  | nil => intro acc; simp
  | cons e t ih => intro acc; simp [appendHistory, ih]

/-- C8: after N sequential appends the store holds exactly those N
entries in insertion order, appending preserves every previously stored
entry unchanged, and the history listing iterates the entries
most-recent-first (the reverse of insertion order). -/
theorem c8_history_store :
    (∀ es : List HistoryEntry, es.foldl appendHistory [] = es) ∧
    (∀ (h : List HistoryEntry) (e : HistoryEntry),
      (appendHistory h e).length = h.length + 1 ∧
      (appendHistory h e).take h.length = h) ∧
    (∀ es : List HistoryEntry, historyDisplay (es.foldl appendHistory []) = es.reverse) := by
  refine ⟨fun es => by simpa using foldl_appendHistory es [], fun h e => ⟨?_, ?_⟩, fun es => ?_⟩
  · simp [appendHistory]
  · simp [appendHistory]
  · simp [historyDisplay, foldl_appendHistory es []]

/-- C3 is false on the code: a completed orchestration that failed (here:
a transport failure, normalised to an empty result) appends NO history
entry — the handler guards the append with `if all_products:`. -/
theorem c3_counterexample :
    handleSearchCompletion [] "2025-03-01 12:00:00" "kuras / degalai" "benzinas" "95"
      "none" (searchAndAnalyzeProducts (Except.error "connection refused")).1 = [] := rfl

/-- C3 (amended): exactly one HistoryEntry is appended when the
orchestration's result is truthy (a nonempty product list), and none
otherwise — in particular none for any failed orchestration, whose
result is the empty list; previously stored entries are never removed
or mutated. -/
theorem c3_history_conditional_append :
    ∀ (h : List HistoryEntry) (ts c n s o : String) (result : Json),
      ((handleSearchCompletion h ts c n s o result).length =
        h.length + (if jsonTruthy result then 1 else 0)) ∧
      ((handleSearchCompletion h ts c n s o result).take h.length = h) ∧
      (jsonTruthy result = true →
        (handleSearchCompletion h ts c n s o result).getLast? =
          some ⟨ts, c, n, s, o, result⟩) ∧
      (∀ cause : String,
        handleSearchCompletion h ts c n s o
          (searchAndAnalyzeProducts (Except.error cause)).1 = h) := by
  intro h ts c n s o result
  refine ⟨?_, ?_, ?_, ?_⟩
  · by_cases ht : jsonTruthy result <;> simp [handleSearchCompletion, appendHistory, ht]
  · by_cases ht : jsonTruthy result <;> simp [handleSearchCompletion, appendHistory, ht]
  · intro ht; simp [handleSearchCompletion, appendHistory, ht]
  · intro cause; simp [searchAndAnalyzeProducts, handleSearchCompletion, jsonTruthy]

theorem c3_witness :
    jsonTruthy (Json.arr [Json.obj [("provider", Json.str "A")]]) = true ∧
    (handleSearchCompletion [] "2025-03-01 12:00:00" "c" "n" "s" "kg"
        (Json.arr [Json.obj [("provider", Json.str "A")]])).getLast? =
      some ⟨"2025-03-01 12:00:00", "c", "n", "s", "kg",
        Json.arr [Json.obj [("provider", Json.str "A")]]⟩ :=
  ⟨rfl, (c3_history_conditional_append [] "2025-03-01 12:00:00" "c" "n" "s" "kg"
    (Json.arr [Json.obj [("provider", Json.str "A")]])).2.2.1 rfl⟩

/-! ## Price-suffix display -/

/-- C4 is false on the code: for objective "unit" with no `unit_type`
field the suffix is the empty string, not "/unit" — the `if/elif` chain
has no branch for that combination. -/
theorem c4_counterexample :
    unitDisplay "unit" [("price_per_unit", Json.num 999 2)] ≠ "/unit" := by
  have e : unitDisplay "unit" [("price_per_unit", Json.num 999 2)] = "" := rfl
  rw [e]
  decide

/-- C4 (amended): the rendered price-per-objective suffix is "/kg" for
objective "kg", "/L" for "liter", "/pkg" for "package", "/" followed by
the `unit_type` label for objective "unit" when that field is present,
and the empty string (no suffix at all, rather than "/unit") for
objective "unit" when the field is absent. -/
theorem c4_unit_suffixes :
    ∀ (product : List (String × Json)) (label : String),
      unitDisplay "kg" product = "/kg" ∧
      unitDisplay "liter" product = "/L" ∧
      unitDisplay "package" product = "/pkg" ∧
      (∀ rest, unitDisplay "unit" (("unit_type", Json.str label) :: rest) = "/" ++ label) ∧
      (unitDisplay "unit" product =
        if hasKey product "unit_type" then "/" ++ pyStr (getKey product "unit_type") else "") ∧
      unitDisplay "unit" [("price_per_unit", Json.num 999 2)] = "" := by
  intro product label
  refine ⟨rfl, rfl, rfl, fun rest => ?_, ?_, rfl⟩
  · simp [unitDisplay, hasKey, getKey, lookupKey, pyStr]
  · by_cases h : hasKey product "unit_type" <;> simp [unitDisplay, h]

/-! ## Extraction: pass-through of non-product shapes -/

/-- C2 is false on the code: a parsed bare object is NOT normalised to an
empty list; `products_json = products_data` returns the object itself. -/
theorem c2_counterexample :
    extractJson "\x7b\"note\": \"no matches\"\x7d" ≠ Except.ok (Json.arr []) := by
  intro h
  have e : extractJson "\x7b\"note\": \"no matches\"\x7d" =
      Except.ok (Json.obj [("note", Json.str "no matches")]) := rfl
  rw [e] at h
  simp at h

/-- C2 (amended): on a parsed value that is neither an array nor an
object with a "products" key, extraction succeeds with no error but
returns the parsed value itself — the bare object (or scalar) — rather
than an empty list. -/
theorem c2_shape_passthrough :
    extractJson "\x7b\"note\": \"no matches\"\x7d" =
      Except.ok (Json.obj [("note", Json.str "no matches")]) ∧
    extractJson "7" = Except.ok (Json.num 7 0) ∧
    (∀ kvs, pickProducts (Json.obj kvs) =
      (match lookupKey kvs "products" with
       | some w => w
       | none => Json.obj kvs)) ∧
    (∀ m e, pickProducts (Json.num m e) = Json.num m e) ∧
    (∀ b, pickProducts (Json.bool b) = Json.bool b) ∧
    (∀ s, pickProducts (Json.str s) = Json.str s) :=
  ⟨rfl, rfl, fun kvs => rfl, fun m e => rfl, fun b => rfl, fun s => rfl⟩

/-! ## Orchestrator failure normalisation -/

/-- C6: every failure is normalised at the orchestrator boundary to an
empty result plus a diagnostic.  A transport failure yields
`("API request failed: " ++ cause)` with the empty list and no retry
(the orchestrator consumes exactly one service outcome); the
non-JSON response named by the specification makes the extractor fail
with the parser's complaint, which the orchestrator converts to the
empty list plus the non-empty diagnostic
`("Could not parse JSON from API response: " ++ cause)`. -/
theorem c6_failure_normalisation :
    (∀ cause : String,
      searchAndAnalyzeProducts (Except.error cause) =
        (Json.arr [], some (apiFailPrefix ++ cause))) ∧
    extractJson "Sorry, I cannot help with that." = Except.error decodeFailMsg ∧
    searchAndAnalyzeProducts (Except.ok "Sorry, I cannot help with that.") =
      (Json.arr [], some (parseFailPrefix ++ decodeFailMsg)) ∧
    (parseFailPrefix ++ decodeFailMsg ≠ "" ∧ decodeFailMsg ≠ "") :=
  ⟨fun cause => rfl, rfl, rfl, by simp [parseFailPrefix, decodeFailMsg], by simp [decodeFailMsg]⟩

/-! ## Ordered extraction attempts -/

/-- C1: extraction tries the substring search first and parses only the
matched substring when one exists, parses the entire raw text only when
no substring matches, unwraps an object's "products" key and passes an
array through unchanged; on the specification's concrete envelope input
(and on input whose matched region spans embedded newlines) it yields
exactly the expected product list, here the single product with
provider "A" and price 1.5. -/
theorem c1_ordered_extraction :
    (∀ (raw m : List Char), findJsonMatch raw = some m →
      extractCore raw =
        (match jsonParseList m with
         | some v => Except.ok (pickProducts v)
         | none => Except.error decodeFailMsg)) ∧
    (∀ raw : List Char, findJsonMatch raw = none →
      extractCore raw =
        (match jsonParseList raw with
         | some v => Except.ok (pickProducts v)
         | none => Except.error decodeFailMsg)) ∧
    (∀ kvs v, lookupKey kvs "products" = some v → pickProducts (Json.obj kvs) = v) ∧
    (∀ xs, pickProducts (Json.arr xs) = Json.arr xs) ∧
    extractJson envelopeInput = Except.ok (Json.arr [envelopeProduct]) ∧
    lookupKey envelopeFields "provider" = some (Json.str "A") ∧
    lookupKey envelopeFields "productPrice" = some (Json.num 15 1) ∧
    extractJson "x [\n\x7b\"a\": 1\x7d\n] y" =
      Except.ok (Json.arr [Json.obj [("a", Json.num 1 0)]]) := by
  refine ⟨fun raw m hm => ?_, fun raw hm => ?_, fun kvs v hv => ?_, fun xs => rfl,
    rfl, rfl, rfl, rfl⟩
  · simp [extractCore, hm]
  · simp [extractCore, hm]
  · simp [pickProducts, hv]

theorem c1_witness :
    findJsonMatch envelopeInput.toList =
      some "\x7b\"products\": [\x7b\"provider\":\"A\",\"providerWebsite\":\"a.lt\",\"providerUrl\":\"\",\"productName\":\"X\",\"productProperties\":\x7b\x7d,\"productSku\":\"\",\"productPrice\":1.5,\"evaluation\":\"ok\"\x7d]\x7d".toList ∧
    extractCore envelopeInput.toList =
      (match jsonParseList "\x7b\"products\": [\x7b\"provider\":\"A\",\"providerWebsite\":\"a.lt\",\"providerUrl\":\"\",\"productName\":\"X\",\"productProperties\":\x7b\x7d,\"productSku\":\"\",\"productPrice\":1.5,\"evaluation\":\"ok\"\x7d]\x7d".toList with
       | some v => Except.ok (pickProducts v)
       | none => Except.error decodeFailMsg) :=
  ⟨rfl, c1_ordered_extraction.1 envelopeInput.toList _ rfl⟩

/-! ## Prompt builder -/

theorem infixOf_trans {p q s : List Char} (h1 : InfixOf p q) (h2 : InfixOf q s) :
    InfixOf p s := by
  obtain ⟨a, b, rfl⟩ := h1
  obtain ⟨c, d, rfl⟩ := h2
  exact ⟨c ++ a, b ++ d, by simp⟩

theorem infixOf_appendL {p s : List Char} (t : List Char) (h : InfixOf p s) :
    InfixOf p (t ++ s) := by
  obtain ⟨a, b, rfl⟩ := h
  exact ⟨t ++ a, b, by simp⟩

theorem infixOf_appendR {p s : List Char} (t : List Char) (h : InfixOf p s) :
    InfixOf p (s ++ t) := by
  obtain ⟨a, b, rfl⟩ := h
  exact ⟨a, b ++ t, by simp⟩

theorem infixOf_self (p : List Char) : InfixOf p p := ⟨[], [], by simp⟩

theorem toList_append (a b : String) : (a ++ b).toList = a.toList ++ b.toList := rfl

theorem win3Ok_cons3 (a b c : Char) (t : List Char) :
    win3Ok (a :: b :: c :: t) = (noRUN a b c && win3Ok (b :: c :: t)) := rfl

theorem win3Ok_tail {d : Char} {t : List Char} (h : win3Ok (d :: t) = true) :
    win3Ok t = true := by
  match t with
  | [] => rfl
  | [_] => rfl
  | x :: y :: t2 =>
    rw [win3Ok_cons3, Bool.and_eq_true] at h
    exact h.2

theorem win3Ok_window {s : List Char} (hs : win3Ok s = true) :
    ∀ u a b c v, s = u ++ a :: b :: c :: v → noRUN a b c = true := by
  intro u
  induction u generalizing s with
  | nil =>
    intro a b c v hsv
    subst hsv
    simp only [List.nil_append] at hs
    rw [win3Ok_cons3, Bool.and_eq_true] at hs
    exact hs.1
  | cons d u ih =>
    intro a b c v hsv
    subst hsv
    exact ih (win3Ok_tail hs) a b c v rfl

theorem win3Ok_of_windows {s : List Char}
    (h : ∀ u a b c v, s = u ++ a :: b :: c :: v → noRUN a b c = true) :
    win3Ok s = true := by
  induction s with
  | nil => rfl
  | cons a t ih =>
    match t with
    | [] => rfl
    | [_] => rfl
    | b :: c :: t2 =>
      rw [win3Ok_cons3, Bool.and_eq_true]
      refine ⟨h [] a b c t2 rfl, ih ?_⟩
      intro u a2 b2 c2 v hv
      exact h (a :: u) a2 b2 c2 v (by rw [hv]; rfl)

theorem noRUN_of_mid {a b c : Char} (hb : b ≠ '_') : noRUN a b c = true := by
  simp [noRUN]
  exact Or.inl (Or.inr hb)

theorem win3Ok_append {x y : List Char} (hx : win3Ok x = true) (hy : win3Ok y = true)
    (hxl : x.getLast? ≠ some '_') (hyh : y.head? ≠ some '_') :
    win3Ok (x ++ y) = true := by
  apply win3Ok_of_windows
  intro u a b c v huv
  rcases List.append_eq_append_iff.mp huv.symm with ⟨k, hk1, hk2⟩ | ⟨k, hk1, hk2⟩
  · -- hk1 : x = u ++ k, hk2 : a :: b :: c :: v = k ++ y
    match k, hk1, hk2 with
    | [], hk1, hk2 =>
      exact win3Ok_window hy [] a b c v (by simpa using hk2.symm)
    | [a1], hk1, hk2 =>
      rw [List.cons_append, List.nil_append] at hk2
      obtain ⟨h1, h2⟩ := List.cons_eq_cons.mp hk2
      refine noRUN_of_mid fun hb => hyh ?_
      rw [← h2, hb]
      rfl
    | [a1, b1], hk1, hk2 =>
      rw [List.cons_append, List.cons_append, List.nil_append] at hk2
      obtain ⟨h1, h2⟩ := List.cons_eq_cons.mp hk2
      obtain ⟨h3, h4⟩ := List.cons_eq_cons.mp h2
      refine noRUN_of_mid fun hb => hxl ?_
      rw [hk1, show u ++ [a1, b1] = (u ++ [a1]) ++ [b1] by simp, List.getLast?_concat,
        ← h3, hb]
    | a1 :: b1 :: c1 :: k2, hk1, hk2 =>
      simp only [List.cons_append] at hk2
      obtain ⟨h1, h2⟩ := List.cons_eq_cons.mp hk2
      obtain ⟨h3, h4⟩ := List.cons_eq_cons.mp h2
      obtain ⟨h5, h6⟩ := List.cons_eq_cons.mp h4
      subst h1 h3 h5
      exact win3Ok_window hx u a b c k2 hk1
  · -- hk1 : u = x ++ k, hk2 : y = k ++ a :: b :: c :: v
    exact win3Ok_window hy k a b c v hk2

theorem uSafe_nil : uSafe [] := ⟨rfl, by simp, by simp⟩

theorem uSafe_append {x y : List Char} (hx : uSafe x) (hy : uSafe y) : uSafe (x ++ y) := by
  obtain ⟨hx1, hx2, hx3⟩ := hx
  obtain ⟨hy1, hy2, hy3⟩ := hy
  refine ⟨win3Ok_append hx1 hy1 hx3 hy2, ?_, ?_⟩
  · cases x with
    | nil => simpa using hy2
    | cons c t => simpa using hx2
  · rw [List.getLast?_append]
    cases hgl : y.getLast? with
    | none => simpa [Option.or] using hx3
    | some d =>
      rw [hgl] at hy3
      simpa [Option.or] using hy3

theorem uSafe_of_noU {x : List Char} (h : '_' ∉ x) : uSafe x := by
  refine ⟨win3Ok_of_windows ?_, ?_, ?_⟩
  · intro u a b c v hv
    apply noRUN_of_mid
    intro hb
    exact h (by rw [hv, hb]; simp)
  · intro hh
    exact h (List.mem_of_mem_head? hh)
  · intro hh
    exact h (List.mem_of_mem_getLast? hh)

theorem toList_empty : ("" : String).toList = [] := rfl

theorem buildPrompt_toList (r : SearchRequest) :
    (buildPrompt r).toList =
      promptHead1.toList ++ (r.category.toList ++ (promptHead2.toList ++
        (r.productName.toList ++ (promptHead3.toList ++ (r.techSpec.toList ++
        (promptHead4.toList ++ ((objectiveDirective r).toList ++
        (promptJsonInstr.toList ++ ((priceFieldPart r).toList ++ promptTail.toList))))))))) := by
  simp only [buildPrompt, toList_append, List.append_assoc]

theorem uSafe_head1 : uSafe promptHead1.toList := uSafe_of_noU (by decide)

theorem uSafe_head2 : uSafe promptHead2.toList := uSafe_of_noU (by decide)

theorem uSafe_head3 : uSafe promptHead3.toList := uSafe_of_noU (by decide)

theorem uSafe_head4 : uSafe promptHead4.toList := uSafe_of_noU (by decide)

theorem uSafe_instr : uSafe promptJsonInstr.toList := ⟨by decide, by decide, by decide⟩

theorem uSafe_tail : uSafe promptTail.toList := uSafe_of_noU (by decide)

/-- C5 (amended): the built prompt always contains the category, product
name and technical specification verbatim; when the objective is "unit"
it contains the per-unit directive with the supplied custom label (or
the literal word "unit" when none was supplied); and — provided the
three free-text fields contain no underscore character, so that they
cannot themselves spell a `price_per_...` field name — the prompt
contains the field name `price_per_<objective>` if and only if the
objective is not "none". -/
theorem c5_prompt_builder (r : SearchRequest) :
    strContains (buildPrompt r) r.category ∧
    strContains (buildPrompt r) r.productName ∧
    strContains (buildPrompt r) r.techSpec ∧
    (('_' ∉ r.category.toList ∧ '_' ∉ r.productName.toList ∧ '_' ∉ r.techSpec.toList) →
      (strContains (buildPrompt r) ("price_per_" ++ r.priceCalcObjective) ↔
        r.priceCalcObjective ≠ "none")) ∧
    (r.priceCalcObjective = "unit" →
      strContains (buildPrompt r) ("price per " ++ unitTypeLabel r ++ " for each product")) := by
  refine ⟨?_, ?_, ?_, ?_, ?_⟩
  · show InfixOf r.category.toList (buildPrompt r).toList
    rw [buildPrompt_toList]
    exact infixOf_appendL _ (infixOf_appendR _ (infixOf_self _))
  · show InfixOf r.productName.toList (buildPrompt r).toList
    rw [buildPrompt_toList]
    exact infixOf_appendL _ (infixOf_appendL _ (infixOf_appendL _
      (infixOf_appendR _ (infixOf_self _))))
  · show InfixOf r.techSpec.toList (buildPrompt r).toList
    rw [buildPrompt_toList]
    exact infixOf_appendL _ (infixOf_appendL _ (infixOf_appendL _ (infixOf_appendL _
      (infixOf_appendL _ (infixOf_appendR _ (infixOf_self _))))))
  · intro hu
    constructor
    · intro hcon
      intro hobj
      have hdir : objectiveDirective r = "" := by simp [objectiveDirective, hobj]
      have hpf : priceFieldPart r = "" := by simp [priceFieldPart, hobj]
      have hsafe : win3Ok (buildPrompt r).toList = true := by
        have h := uSafe_append uSafe_head1 (uSafe_append (uSafe_of_noU hu.1)
          (uSafe_append uSafe_head2 (uSafe_append (uSafe_of_noU hu.2.1)
          (uSafe_append uSafe_head3 (uSafe_append (uSafe_of_noU hu.2.2)
          (uSafe_append uSafe_head4 (uSafe_append uSafe_instr uSafe_tail)))))))
        rw [buildPrompt_toList, hdir, hpf]
        simpa only [toList_empty, List.nil_append, List.append_assoc] using h.1
      obtain ⟨u, v, huv⟩ := hcon
      have hx : ("price_per_" ++ r.priceCalcObjective).toList =
          "price_pe".toList ++ 'r' :: '_' :: 'n' :: "one".toList := by
        rw [hobj]; decide
      rw [hx] at huv
      have hw := win3Ok_window hsafe (u ++ "price_pe".toList) 'r' '_' 'n'
        ("one".toList ++ v) (by rw [huv]; simp)
      simp [noRUN] at hw
    · intro hobj
      show InfixOf ("price_per_" ++ r.priceCalcObjective).toList (buildPrompt r).toList
      rw [buildPrompt_toList]
      refine infixOf_appendL _ (infixOf_appendL _ (infixOf_appendL _ (infixOf_appendL _
        (infixOf_appendL _ (infixOf_appendL _ (infixOf_appendL _ (infixOf_appendL _
        (infixOf_appendL _ (infixOf_appendR _ ?_)))))))))
      have hpf : priceFieldPart r = "\n            \"price_per_" ++ r.priceCalcObjective ++
          "\": 9.99," ++
          (if r.priceCalcObjective = "unit" then
            match r.customCalcUnit with
            | some s => if s = "" then "" else "\n            \"unit_type\": \"" ++ s ++ "\","
            | none => ""
          else "") := by
        rw [priceFieldPart, if_neg hobj]
      rw [hpf]
      refine ⟨"\n            \"".toList,
        ("\": 9.99," ++
          (if r.priceCalcObjective = "unit" then
            match r.customCalcUnit with
            | some s => if s = "" then "" else "\n            \"unit_type\": \"" ++ s ++ "\","
            | none => ""
          else "")).toList, ?_⟩
      have hA : ("\n            \"price_per_" : String).toList =
          "\n            \"".toList ++ "price_per_".toList := by decide
      simp only [toList_append, hA, List.append_assoc]
  · intro hunit
    have hdir : objectiveDirective r =
        "\n5. Calculate and include price per " ++ unitTypeLabel r ++ " for each product" := by
      rw [objectiveDirective, if_neg (by rw [hunit]; decide), if_pos hunit]
    show InfixOf ("price per " ++ unitTypeLabel r ++ " for each product").toList
      (buildPrompt r).toList
    rw [buildPrompt_toList, hdir]
    refine infixOf_appendL _ (infixOf_appendL _ (infixOf_appendL _ (infixOf_appendL _
      (infixOf_appendL _ (infixOf_appendL _ (infixOf_appendL _ (infixOf_appendR _ ?_)))))))
    refine ⟨"\n5. Calculate and include ".toList, [], ?_⟩
    have hB : ("\n5. Calculate and include price per " : String).toList =
        "\n5. Calculate and include ".toList ++ "price per ".toList := by decide
    simp only [toList_append, hB, List.append_assoc, List.append_nil]

/-- C5 is false as stated for arbitrary valid requests: a request whose
technical specification itself contains the text `price_per_none` makes
the prompt contain `price_per_none` although the objective is "none",
violating the claimed iff. -/
theorem c5_counterexample :
    strContains (buildPrompt ⟨"fuel", "petrol", "price_per_none", "none", none⟩)
      ("price_per_" ++ ("none" : String)) := by
  show InfixOf _ _
  rw [buildPrompt_toList]
  refine infixOf_appendL _ (infixOf_appendL _ (infixOf_appendL _ (infixOf_appendL _
    (infixOf_appendL _ (infixOf_appendR _ ?_)))))
  exact ⟨[], [], by decide⟩

theorem c5_witness :
    ('_' ∉ ("Vitamins" : String).toList ∧ '_' ∉ ("Vitamin D" : String).toList ∧
      '_' ∉ ("4000 IU" : String).toList) ∧
    (strContains (buildPrompt ⟨"Vitamins", "Vitamin D", "4000 IU", "kg", none⟩)
        ("price_per_" ++ ("kg" : String)) ↔ ("kg" : String) ≠ "none") :=
  ⟨by decide, (c5_prompt_builder ⟨"Vitamins", "Vitamin D", "4000 IU", "kg", none⟩).2.2.2.1
    (by decide)⟩

/-! ## Character-class and scanner helper lemmas -/

theorem ne_of_isDigit {c k : Char} (h1 : isDigit c = true) (h2 : isDigit k = false) :
    c ≠ k := by
  intro hc
  subst hc
  rw [h1] at h2
  cases h2

theorem not_ws_of_isDigit {c : Char} (h : isDigit c = true) : isJsonWs c = false := by
  by_contra hw
  rw [Bool.not_eq_false] at hw
  simp only [isJsonWs, Bool.or_eq_true, decide_eq_true_eq] at hw
  rcases hw with ((h1 | h1) | h1) | h1 <;> subst h1 <;> exact absurd h (by decide)

theorem skipWs_cons_of_not_ws {c : Char} (t : List Char) (h : isJsonWs c = false) :
    skipWs (c :: t) = c :: t := by
  rw [skipWs, h]
  simp

theorem skipWs_all_ws {w : List Char} (h : ∀ c ∈ w, isJsonWs c = true) :
    ∀ s, skipWs (w ++ s) = skipWs s := by
  induction w with
  | nil => intro s; rfl
  | cons c t ih =>
    intro s
    rw [List.cons_append, skipWs, h c (by simp)]
    simp only [if_true]
    exact ih (fun d hd => h d (by simp [hd])) s

theorem skipWs_ne_nil {s : List Char} (h : ∃ c ∈ s, isJsonWs c = false) :
    skipWs s ≠ [] := by
  induction s with
  | nil => obtain ⟨c, hc, _⟩ := h; cases hc
  | cons c t ih =>
    rw [skipWs]
    by_cases hw : isJsonWs c
    · rw [if_pos hw]
      apply ih
      obtain ⟨d, hd, hdw⟩ := h
      rcases List.mem_cons.mp hd with rfl | hdt
      · rw [hw] at hdw; cases hdw
      · exact ⟨d, hdt, hdw⟩
    · rw [if_neg hw]
      simp

theorem expectLit_self (l : List Char) : ∀ r, expectLit l (l ++ r) = some r := by
  induction l with
  | nil => intro r; rfl
  | cons a t ih =>
    intro r
    rw [List.cons_append, expectLit]
    simp [ih r]

theorem expectLit_eq {l : List Char} : ∀ {s r : List Char},
    expectLit l s = some r → s = l ++ r := by
  induction l with
  | nil =>
    intro s r h
    rw [expectLit] at h
    cases h
    rfl
  | cons a t ih =>
    intro s r h
    match s with
    | [] => cases h
    | c :: s2 =>
      rw [expectLit] at h
      by_cases hc : c = a
      · rw [if_pos hc] at h
        subst hc
        rw [List.cons_append, ih h]
      · rw [if_neg hc] at h
        cases h

/-! ## Decimal digit printing and reading -/

theorem digitChar_val {n : Nat} (h : n < 10) : digitVal (digitChar n) = n := by
  interval_cases n <;> rfl

theorem digitChar_isDigit {n : Nat} (h : n < 10) : isDigit (digitChar n) = true := by
  interval_cases n <;> rfl

theorem digitChar_ne_zero {n : Nat} (h1 : n < 10) (h2 : n ≠ 0) : digitChar n ≠ '0' := by
  interval_cases n
  · exact absurd rfl h2
  all_goals decide

theorem natDigitsAux_acc : ∀ (n f : Nat) (acc : List Char), n < f →
    natDigitsAux f n acc = natDigits n ++ acc := by
  intro n
  induction n using Nat.strong_induction_on with
  | _ n ih =>
    intro f acc hf
    obtain ⟨f, rfl⟩ : ∃ g, f = g + 1 := ⟨f - 1, by omega⟩
    rw [natDigitsAux]
    by_cases h10 : n < 10
    · rw [if_pos h10, natDigits, natDigitsAux, if_pos h10]
      rfl
    · rw [if_neg h10]
      have hd : n / 10 < n := Nat.div_lt_self (by omega) (by omega)
      have h2 : natDigits n = natDigitsAux n (n / 10) [digitChar (n % 10)] := by
        rw [natDigits, natDigitsAux, if_neg h10]
      rw [ih _ hd _ _ (by omega), h2, ih _ hd _ _ (by omega)]
      simp

theorem natDigits_split {n : Nat} (h : ¬ n < 10) :
    natDigits n = natDigits (n / 10) ++ [digitChar (n % 10)] := by
  have hd : n / 10 < n := Nat.div_lt_self (by omega) (by omega)
  rw [natDigits, natDigitsAux, if_neg h, natDigitsAux_acc _ _ _ (by omega)]

theorem natDigits_small {n : Nat} (h : n < 10) : natDigits n = [digitChar n] := by
  rw [natDigits, natDigitsAux, if_pos h]

theorem natDigits_all_digit : ∀ n, ∀ c ∈ natDigits n, isDigit c = true := by
  intro n
  induction n using Nat.strong_induction_on with
  | _ n ih =>
    intro c hc
    by_cases h10 : n < 10
    · rw [natDigits_small h10] at hc
      simp at hc
      subst hc
      exact digitChar_isDigit h10
    · rw [natDigits_split h10] at hc
      rcases List.mem_append.mp hc with h1 | h1
      · exact ih _ (Nat.div_lt_self (by omega) (by omega)) c h1
      · simp at h1
        subst h1
        exact digitChar_isDigit (Nat.mod_lt _ (by omega))

theorem natDigits_ne_nil (n : Nat) : natDigits n ≠ [] := by
  by_cases h10 : n < 10
  · rw [natDigits_small h10]; simp
  · rw [natDigits_split h10]; simp

theorem natDigits_head_ne_zero : ∀ n, n ≠ 0 → ∀ d, (natDigits n).head? = some d → d ≠ '0' := by
  intro n
  induction n using Nat.strong_induction_on with
  | _ n ih =>
    intro hn d hd
    by_cases h10 : n < 10
    · rw [natDigits_small h10] at hd
      simp at hd
      subst hd
      exact digitChar_ne_zero h10 hn
    · rw [natDigits_split h10, List.head?_append] at hd
      have h1 : n / 10 ≠ 0 := by omega
      cases hh : (natDigits (n / 10)).head? with
      | none =>
        exact absurd (List.head?_eq_none_iff.mp hh) (natDigits_ne_nil _)
      | some e =>
        rw [hh] at hd
        simp [Option.or] at hd
        subst hd
        exact ih _ (Nat.div_lt_self (by omega) (by omega)) h1 e hh

theorem foldl_natDigits : ∀ n acc, (natDigits n).foldl (fun a c => a * 10 + digitVal c) acc =
    acc * 10 ^ (natDigits n).length + n := by
  intro n
  induction n using Nat.strong_induction_on with
  | _ n ih =>
    intro acc
    by_cases h10 : n < 10
    · rw [natDigits_small h10]
      simp [digitChar_val h10]
    · rw [natDigits_split h10, List.foldl_append]
      have hd : n / 10 < n := Nat.div_lt_self (by omega) (by omega)
      rw [ih _ hd acc]
      simp only [List.foldl_cons, List.foldl_nil, List.length_append, List.length_cons,
        List.length_nil]
      rw [digitChar_val (Nat.mod_lt _ (by omega))]
      have hp : 10 ^ ((natDigits (n / 10)).length + (0 + 1)) =
          10 ^ (natDigits (n / 10)).length * 10 := by
        rw [Nat.zero_add, Nat.pow_succ]
      rw [hp]
      have := Nat.div_add_mod n 10
      ring_nf
      omega

theorem natDigits_len_le : ∀ e m, m < 10 ^ e → 0 < e → (natDigits m).length ≤ e := by
  intro e
  induction e with
  | zero => intro m _ h; omega
  | succ e ih =>
    intro m hm _
    by_cases h10 : m < 10
    · rw [natDigits_small h10]
      simp
    · rw [natDigits_split h10]
      have he : 0 < e := by
        by_contra h
        have : e = 0 := by omega
        subst this
        simp at hm
        omega
      have hdiv : m / 10 < 10 ^ e := by
        rw [Nat.div_lt_iff_lt_mul (by omega)]
        calc m < 10 ^ (e + 1) := hm
        _ = 10 ^ e * 10 := by rw [Nat.pow_succ]
      have := ih (m / 10) hdiv he
      simp only [List.length_append, List.length_cons, List.length_nil]
      omega

/-! ## Number lexer round trip -/

theorem headND_of_headNDD {r : List Char} (h : headNDD r) : headND r :=
  fun c hc => (h c hc).1

theorem digitRunAux_run : ∀ (ds r : List Char) (acc len : Nat),
    (∀ c ∈ ds, isDigit c = true) → headND r →
    digitRunAux (ds ++ r) acc len =
      (ds.foldl (fun a c => a * 10 + digitVal c) acc, len + ds.length, r) := by
  intro ds
  induction ds with
  | nil =>
    intro r acc len _ hr
    match r with
    | [] => rfl
    | c :: t =>
      rw [List.nil_append, digitRunAux, hr c rfl]
      simp
  | cons c ds ih =>
    intro r acc len hd hr
    rw [List.cons_append, digitRunAux, hd c (by simp)]
    simp only [if_true, List.foldl_cons, List.length_cons]
    rw [ih r _ _ (fun d hdm => hd d (by simp [hdm])) hr]
    simp
    omega

theorem parseIntPart_ser (n : Nat) (r : List Char) (hr : headND r) :
    parseIntPart (natDigits n ++ r) = some (n, r) := by
  by_cases h0 : n = 0
  · subst h0
    rw [natDigits_small (by omega)]
    rfl
  · cases hnd : natDigits n with
    | nil => exact absurd hnd (natDigits_ne_nil n)
    | cons d ds =>
      have hdd : isDigit d = true := natDigits_all_digit n d (by rw [hnd]; simp)
      have hdz : d ≠ '0' := natDigits_head_ne_zero n h0 d (by rw [hnd]; rfl)
      rw [List.cons_append, parseIntPart, if_neg hdz, if_pos hdd]
      rw [digitRunAux_run ds r (digitVal d) 1
        (fun c hc => natDigits_all_digit n c (by rw [hnd]; simp [hc])) hr]
      have hv := foldl_natDigits n 0
      rw [hnd] at hv
      simp only [List.foldl_cons, Nat.zero_mul, Nat.zero_add] at hv
      rw [hv]

theorem foldl_zeros : ∀ z : Nat,
    (List.replicate z '0').foldl (fun a c => a * 10 + digitVal c) 0 = 0 := by
  intro z
  induction z with
  | zero => rfl
  | succ z ih => simpa [List.replicate_succ, digitVal]

theorem padDigits_all_digit (e k : Nat) : ∀ c ∈ padDigits e k, isDigit c = true := by
  intro c hc
  rcases List.mem_append.mp hc with h1 | h1
  · rw [List.eq_of_mem_replicate h1]
    decide
  · exact natDigits_all_digit k c h1

theorem padDigits_val (e k : Nat) :
    (padDigits e k).foldl (fun a c => a * 10 + digitVal c) 0 = k := by
  rw [padDigits, List.foldl_append, foldl_zeros, foldl_natDigits]
  simp

theorem padDigits_len {e k : Nat} (hk : k < 10 ^ e) (he : 0 < e) :
    (padDigits e k).length = e := by
  rw [padDigits]
  have := natDigits_len_le e k hk he
  simp
  omega

theorem lexUNum_ser (a e : Nat) (r : List Char) (hr : headNDD r) :
    lexUNum (serUNum a e ++ r) = some (a, e, r) := by
  by_cases he : e = 0
  · subst he
    rw [serUNum, if_pos rfl, lexUNum, parseIntPart_ser a r (headND_of_headNDD hr)]
    match r, hr with
    | [], _ => rfl
    | c :: t, hr =>
      simp only
      rw [if_neg (hr c rfl).2]
  · rw [serUNum, if_neg he]
    have hsplit : natDigits (a / 10 ^ e) ++ '.' :: padDigits e (a % 10 ^ e) ++ r =
        natDigits (a / 10 ^ e) ++ ('.' :: (padDigits e (a % 10 ^ e) ++ r)) := by
      simp
    rw [hsplit, lexUNum, parseIntPart_ser _ _ (fun c hc => by cases hc; decide)]
    have hmod : a % 10 ^ e < 10 ^ e := Nat.mod_lt _ (Nat.pos_pow_of_pos e (by omega))
    simp only [if_pos trivial]
    rw [digitRunAux_run _ r 0 0 (padDigits_all_digit _ _) (headND_of_headNDD hr)]
    dsimp only
    rw [padDigits_val, padDigits_len hmod (by omega)]
    simp only [Nat.zero_add]
    rw [if_neg (by omega)]
    congr 2
    exact Nat.div_add_mod' a (10 ^ e)

theorem serUNum_head_digit (a e : Nat) :
    ∃ d t, serUNum a e = d :: t ∧ isDigit d = true := by
  rw [serUNum]
  by_cases he : e = 0
  · rw [if_pos he]
    cases hnd : natDigits a with
    | nil => exact absurd hnd (natDigits_ne_nil a)
    | cons d ds =>
      exact ⟨d, ds, rfl, natDigits_all_digit a d (by rw [hnd]; simp)⟩
  · rw [if_neg he]
    cases hnd : natDigits (a / 10 ^ e) with
    | nil => exact absurd hnd (natDigits_ne_nil _)
    | cons d ds =>
      exact ⟨d, ds ++ '.' :: padDigits e (a % 10 ^ e), by simp [hnd],
        natDigits_all_digit _ d (by rw [hnd]; simp)⟩

theorem lexNum_cons (c : Char) (t : List Char) :
    lexNum (c :: t) =
      (if c = '-' then
        match lexUNum t with
        | some (m, e, r) => some (Json.num (-(m : Int)) e, r)
        | none => none
      else
        match lexUNum (c :: t) with
        | some (m, e, r) => some (Json.num (m : Int) e, r)
        | none => none) := by
  rw [lexNum.eq_def]

theorem lexNum_ser (m : Int) (e : Nat) (r : List Char) (hr : headNDD r) :
    lexNum (serNum m e ++ r) = some (Json.num m e, r) := by
  by_cases hm : m < 0
  · rw [serNum, if_pos hm]
    simp only [List.cons_append, List.nil_append]
    rw [lexNum_cons]
    simp only [if_pos rfl]
    rw [lexUNum_ser m.natAbs e r hr]
    dsimp only
    have : (-(m.natAbs : Int)) = m := by omega
    rw [this]
    simp
  · rw [serNum, if_neg hm, List.nil_append]
    obtain ⟨d, t, hdt, hdd⟩ := serUNum_head_digit m.natAbs e
    rw [hdt, List.cons_append, lexNum_cons, if_neg (ne_of_isDigit hdd (by decide))]
    rw [← List.cons_append, ← hdt, lexUNum_ser m.natAbs e r hr]
    dsimp only
    have : ((m.natAbs : Nat) : Int) = m := by omega
    rw [this]

/-! ## String body round trip -/

theorem escStr_append (s t : List Char) : escStr (s ++ t) = escStr s ++ escStr t := by
  induction s with
  | nil => rfl
  | cons c s ih => rw [List.cons_append, escStr, escStr, ih, List.append_assoc]

theorem parseStrBody_cons (c : Char) (t : List Char) :
    parseStrBody (c :: t) =
      (if c = '"' then some ([], t)
       else if c = '\\' then
         match t with
         | [] => none
         | e :: t2 =>
           match unescape e with
           | some d => (parseStrBody t2).map (fun p => (d :: p.1, p.2))
           | none => none
       else if c.toNat < 32 then none
       else (parseStrBody t).map (fun p => (c :: p.1, p.2))) := by
  rw [parseStrBody.eq_def]

theorem parseStrBody_ser : ∀ (s : List Char), wfStrL s = true →
    ∀ r, parseStrBody (escStr s ++ '"' :: r) = some (s, r) := by
  intro s
  induction s with
  | nil =>
    intro _ r
    rw [escStr, List.nil_append, parseStrBody_cons, if_pos rfl]
  | cons c s ih =>
    intro hwf r
    have hwfs : wfStrL s = true := by
      rw [wfStrL] at hwf ⊢
      simp [List.all_cons] at hwf
      exact List.all_eq_true.mpr fun x hx => by
        simpa using hwf.2 x hx
    have hc : 32 ≤ c.toNat := by
      rw [wfStrL] at hwf
      simp [List.all_cons] at hwf
      exact hwf.1
    by_cases hq : c = '"'
    · subst hq
      rw [escStr, escChar, if_pos rfl]
      rw [show (['\\', '"'] ++ escStr s) ++ '"' :: r =
        '\\' :: ('"' :: (escStr s ++ '"' :: r)) from by simp]
      rw [parseStrBody_cons]
      simp only [if_neg (by decide : ¬('\\' : Char) = '"'), if_pos rfl]
      rw [show unescape '"' = some '"' from rfl, ih hwfs r]
      rfl
    · by_cases hb : c = '\\'
      · subst hb
        rw [escStr, escChar, if_neg (by decide), if_pos rfl]
        rw [show (['\\', '\\'] ++ escStr s) ++ '"' :: r =
          '\\' :: ('\\' :: (escStr s ++ '"' :: r)) from by simp]
        rw [parseStrBody_cons]
        simp only [if_neg (by decide : ¬('\\' : Char) = '"'), if_pos rfl]
        rw [show unescape '\\' = some '\\' from rfl, ih hwfs r]
        rfl
      · rw [escStr, escChar, if_neg hq, if_neg hb]
        rw [show ([c] ++ escStr s) ++ '"' :: r = c :: (escStr s ++ '"' :: r) from by simp]
        rw [parseStrBody_cons]
        simp only [if_neg hq, if_neg hb, if_neg (by omega : ¬ c.toNat < 32)]
        rw [ih hwfs r]
        rfl

theorem mk_data (s : String) : String.mk s.data = s := rfl

/-! ## Serialiser shapes and size bounds -/

theorem ser_shape (v : Json) :
    ∃ d t, ser v = d :: t ∧ isJsonWs d = false ∧ d ≠ ']' ∧ d ≠ ',' := by
  cases v with
  | null => exact ⟨'n', _, rfl, by decide⟩
  | bool b =>
    cases b with
    | true => exact ⟨'t', _, rfl, by decide⟩
    | false => exact ⟨'f', _, rfl, by decide⟩
  | num m e =>
    rw [show ser (.num m e) = serNum m e from rfl, serNum]
    by_cases hm : m < 0
    · rw [if_pos hm]
      exact ⟨'-', _, rfl, by decide⟩
    · rw [if_neg hm, List.nil_append]
      obtain ⟨d, t, hdt, hdd⟩ := serUNum_head_digit m.natAbs e
      exact ⟨d, t, hdt, not_ws_of_isDigit hdd, ne_of_isDigit hdd (by decide),
        ne_of_isDigit hdd (by decide)⟩
  | str s => exact ⟨'"', _, rfl, by decide⟩
  | arr xs => exact ⟨'[', _, rfl, by decide⟩
  | obj kvs => exact ⟨lbrace, _, rfl, by decide⟩

theorem serItemsL_cons (x : Json) (xs : List Json) :
    serItemsL (x :: xs) =
      ser x ++ (match xs with | [] => [] | _ :: _ => ',' :: serItemsL xs) := by
  cases xs with
  | nil => simp [serItemsL]
  | cons y t => rfl

theorem serMemsL_cons (k : String) (v : Json) (kvs : List (String × Json)) :
    serMemsL ((k, v) :: kvs) =
      '"' :: (escStr k.data ++ '"' :: ':' :: (ser v ++
        (match kvs with | [] => [] | _ :: _ => ',' :: serMemsL kvs))) := by
  cases kvs with
  | nil => simp [serMemsL]
  | cons m t => simp [serMemsL]

theorem serItemsL_single (x : Json) : serItemsL [x] = ser x := by
  simp [serItemsL]

theorem serItemsL_cons2 (x y : Json) (t : List Json) :
    serItemsL (x :: y :: t) = ser x ++ ',' :: serItemsL (y :: t) := rfl

theorem serMemsL_single (k : String) (v : Json) :
    serMemsL [(k, v)] = '"' :: (escStr k.data ++ '"' :: ':' :: ser v) := by
  simp [serMemsL]

theorem serMemsL_cons2 (k : String) (v : Json) (m : String × Json)
    (t : List (String × Json)) :
    serMemsL ((k, v) :: m :: t) =
      ('"' :: escStr k.data ++ '"' :: ':' :: ser v) ++ ',' :: serMemsL (m :: t) := rfl

theorem jsize_pos (v : Json) : 1 ≤ jsize v := by
  cases v <;> simp [jsize]

theorem ser_len_pos (v : Json) : 1 ≤ (ser v).length := by
  obtain ⟨d, t, hdt, -, -, -⟩ := ser_shape v
  rw [hdt]
  simp

theorem jsize_le_jsizeL : ∀ {x : Json} {xs : List Json}, x ∈ xs → jsize x ≤ jsizeL xs := by
  intro x xs
  induction xs with
  | nil => intro h; cases h
  | cons y t ih =>
    intro h
    rw [jsizeL]
    rcases List.mem_cons.mp h with rfl | ht
    · omega
    · have := ih ht
      omega

theorem jsize_le_jsizeM : ∀ {kv : String × Json} {kvs : List (String × Json)},
    kv ∈ kvs → jsize kv.2 ≤ jsizeM kvs := by
  intro kv kvs
  induction kvs with
  | nil => intro h; cases h
  | cons m t ih =>
    intro h
    obtain ⟨k2, v2⟩ := m
    simp only [jsizeM]
    rcases List.mem_cons.mp h with rfl | ht
    · dsimp only
      omega
    · have := ih ht
      omega

theorem jsizeL_le_len (xs : List Json) (h : ∀ x ∈ xs, jsize x ≤ (ser x).length) :
    jsizeL xs ≤ (serItemsL xs).length + 1 := by
  induction xs with
  | nil => simp [jsizeL, serItemsL]
  | cons x t ih =>
    cases t with
    | nil =>
      have h1 := h x (by simp)
      simp only [jsizeL, serItemsL]
      omega
    | cons y t2 =>
      have h1 := h x (by simp)
      have h2 := ih (fun z hz => h z (by simp [hz]))
      have h3 := ser_len_pos x
      rw [jsizeL, serItemsL_cons]
      simp only [List.length_append, List.length_cons]
      omega

theorem jsizeM_le_len (kvs : List (String × Json))
    (h : ∀ kv ∈ kvs, jsize kv.2 ≤ (ser kv.2).length) :
    jsizeM kvs ≤ (serMemsL kvs).length + 1 := by
  induction kvs with
  | nil => simp [jsizeM, serMemsL]
  | cons m t ih =>
    obtain ⟨k, v⟩ := m
    cases t with
    | nil =>
      have h1 := h (k, v) (by simp)
      dsimp only at h1
      simp only [jsizeM, serMemsL]
      simp only [List.length_cons, List.length_append]
      omega
    | cons m2 t2 =>
      have h1 := h (k, v) (by simp)
      dsimp only at h1
      have h2 := ih (fun z hz => h z (by simp [hz]))
      rw [serMemsL_cons,
        show jsizeM ((k, v) :: m2 :: t2) = 1 + max (jsize v) (jsizeM (m2 :: t2)) from rfl]
      simp only [List.length_cons, List.length_append]
      omega

theorem jsize_le_serLen : ∀ (n : Nat) (v : Json), jsize v ≤ n →
    jsize v ≤ (ser v).length := by
  intro n
  induction n using Nat.strong_induction_on with
  | _ n ih =>
    intro v hn
    cases v with
    | null => simp [jsize, ser]
    | bool b => cases b <;> simp [jsize, ser]
    | num m e =>
      have := ser_len_pos (.num m e)
      simp only [jsize]
      omega
    | str s =>
      have := ser_len_pos (.str s)
      simp only [jsize]
      omega
    | arr xs =>
      have hb : jsizeL xs ≤ (serItemsL xs).length + 1 := by
        apply jsizeL_le_len
        intro x hx
        have h1 : jsize x ≤ jsizeL xs := jsize_le_jsizeL hx
        have h2 : jsize (Json.arr xs) = 1 + jsizeL xs := rfl
        have h3 : 1 ≤ jsize x := jsize_pos x
        exact ih (n - 1) (by omega) x (by omega)
      have hlen : (ser (Json.arr xs)).length = (serItemsL xs).length + 2 := by
        rw [show ser (Json.arr xs) = '[' :: serItemsL xs ++ [']'] from rfl]
        simp
      rw [show jsize (Json.arr xs) = 1 + jsizeL xs from rfl, hlen]
      omega
    | obj kvs =>
      have hb : jsizeM kvs ≤ (serMemsL kvs).length + 1 := by
        apply jsizeM_le_len
        intro kv hkv
        have h1 : jsize kv.2 ≤ jsizeM kvs := jsize_le_jsizeM hkv
        have h2 : jsize (Json.obj kvs) = 1 + jsizeM kvs := rfl
        have h3 : 1 ≤ jsize kv.2 := jsize_pos kv.2
        exact ih (n - 1) (by omega) kv.2 (by omega)
      have hlen : (ser (Json.obj kvs)).length = (serMemsL kvs).length + 2 := by
        rw [show ser (Json.obj kvs) = lbrace :: serMemsL kvs ++ [rbrace] from rfl]
        simp
      rw [show jsize (Json.obj kvs) = 1 + jsizeM kvs from rfl, hlen]
      omega

/-! ## Parser unfolding lemmas -/

theorem parseVal_quote (f : Nat) (t : List Char) :
    parseVal (f + 1) ('"' :: t) =
      (parseStrBody t).map (fun p => (Json.str (String.mk p.1), p.2)) := rfl

theorem parseVal_lbracket (f : Nat) (t : List Char) :
    parseVal (f + 1) ('[' :: t) =
      (match skipWs t with
       | [] => none
       | d :: r =>
         if d = ']' then some (Json.arr [], r)
         else (parseItems f (d :: r)).map (fun p => (Json.arr p.1, p.2))) := rfl

theorem parseVal_lbrace (f : Nat) (t : List Char) :
    parseVal (f + 1) (lbrace :: t) =
      (match skipWs t with
       | [] => none
       | d :: r =>
         if d = rbrace then some (Json.obj [], r)
         else (parseMems f (d :: r)).map (fun p => (Json.obj p.1, p.2))) := rfl

theorem parseVal_true (f : Nat) (t : List Char) :
    parseVal (f + 1) ('t' :: t) =
      (expectLit ['r', 'u', 'e'] t).map (fun r => (Json.bool true, r)) := rfl

theorem parseVal_false (f : Nat) (t : List Char) :
    parseVal (f + 1) ('f' :: t) =
      (expectLit ['a', 'l', 's', 'e'] t).map (fun r => (Json.bool false, r)) := rfl

theorem parseVal_null (f : Nat) (t : List Char) :
    parseVal (f + 1) ('n' :: t) =
      (expectLit ['u', 'l', 'l'] t).map (fun r => (Json.null, r)) := rfl

theorem parseVal_numhead (f : Nat) (c : Char) (t : List Char)
    (hd : c = '-' ∨ isDigit c = true) :
    parseVal (f + 1) (c :: t) = lexNum (c :: t) := by
  rcases hd with rfl | hdd
  · rfl
  · have h1 : c ≠ '"' := ne_of_isDigit hdd (by decide)
    have h2 : c ≠ '[' := ne_of_isDigit hdd (by decide)
    have h3 : c ≠ lbrace := ne_of_isDigit hdd (by decide)
    have h4 : c ≠ 't' := ne_of_isDigit hdd (by decide)
    have h5 : c ≠ 'f' := ne_of_isDigit hdd (by decide)
    have h6 : c ≠ 'n' := ne_of_isDigit hdd (by decide)
    rw [parseVal.eq_def]
    simp [h1, h2, h3, h4, h5, h6, hdd]

theorem parseItems_succ (f : Nat) (s : List Char) :
    parseItems (f + 1) s =
      (match parseVal f s with
       | none => none
       | some (v, r) =>
         match skipWs r with
         | [] => none
         | d :: r2 =>
           if d = ',' then (parseItems f (skipWs r2)).map (fun p => (v :: p.1, p.2))
           else if d = ']' then some ([v], r2)
           else none) := rfl

theorem parseMems_succ (f : Nat) (s : List Char) :
    parseMems (f + 1) s =
      (match s with
       | [] => none
       | c :: t =>
         if c = '"' then
           match parseStrBody t with
           | none => none
           | some (k, r) =>
             match skipWs r with
             | [] => none
             | d :: r2 =>
               if d = ':' then
                 match parseVal f (skipWs r2) with
                 | none => none
                 | some (v, r3) =>
                   match skipWs r3 with
                   | [] => none
                   | e :: r4 =>
                     if e = ',' then
                       (parseMems f (skipWs r4)).map (fun p => ((String.mk k, v) :: p.1, p.2))
                     else if e = rbrace then some ([(String.mk k, v)], r4)
                     else none
               else none
         else none) := rfl

/-! ## The parse-of-serialised round trip -/

theorem headNDD_cons {c : Char} (r : List Char) (h1 : isDigit c = false) (h2 : c ≠ '.') :
    headNDD (c :: r) := by
  intro d hd
  have hdc : d = c := by simpa using hd.symm
  subst hdc
  exact ⟨h1, h2⟩

theorem numGuard_any {v : Json} {r : List Char} (h : headNDD r) : numGuard v r := by
  cases v <;> first | trivial | exact h

theorem parse_ser_all : ∀ F : Nat,
    (∀ v r, wfJson v = true → jsize v ≤ F → numGuard v r →
      parseVal F (ser v ++ r) = some (v, r)) ∧
    (∀ xs r, wfL xs = true → xs ≠ [] → jsizeL xs ≤ F →
      parseItems F (serItemsL xs ++ ']' :: r) = some (xs, r)) ∧
    (∀ kvs r, wfM kvs = true → kvs ≠ [] → jsizeM kvs ≤ F →
      parseMems F (serMemsL kvs ++ rbrace :: r) = some (kvs, r)) := by
  intro F
  induction F using Nat.strong_induction_on with
  | _ F ih =>
    refine ⟨?_, ?_, ?_⟩
    · -- values
      intro v r hwf hsz hg
      have h1 : 1 ≤ jsize v := jsize_pos v
      obtain ⟨f, rfl⟩ : ∃ g, F = g + 1 := ⟨F - 1, by omega⟩
      cases v with
      | null =>
        rw [show ser Json.null ++ r = 'n' :: (['u', 'l', 'l'] ++ r) from rfl,
          parseVal_null, expectLit_self]
        rfl
      | bool b =>
        cases b with
        | true =>
          rw [show ser (Json.bool true) ++ r = 't' :: (['r', 'u', 'e'] ++ r) from rfl,
            parseVal_true, expectLit_self]
          rfl
        | false =>
          rw [show ser (Json.bool false) ++ r = 'f' :: (['a', 'l', 's', 'e'] ++ r) from rfl,
            parseVal_false, expectLit_self]
          rfl
      | num m e =>
        have hser : ser (Json.num m e) = serNum m e := rfl
        rw [hser]
        obtain ⟨d, t, hdt, hnws, -, -⟩ := ser_shape (Json.num m e)
        rw [hser] at hdt
        rw [hdt, List.cons_append, parseVal_numhead f d _ ?_, ← List.cons_append, ← hdt]
        · exact lexNum_ser m e r hg
        · -- the head of a serialised number is '-' or a digit
          by_cases hm : m < 0
          · left
            rw [serNum, if_pos hm] at hdt
            exact (List.cons_eq_cons.mp hdt.symm).1
          · right
            rw [serNum, if_neg hm, List.nil_append] at hdt
            obtain ⟨d2, t2, hdt2, hdd2⟩ := serUNum_head_digit m.natAbs e
            rw [hdt2] at hdt
            obtain ⟨rfl, -⟩ := List.cons_eq_cons.mp hdt.symm
            exact hdd2
      | str s =>
        rw [show ser (Json.str s) ++ r = '"' :: (escStr s.data ++ '"' :: r) from by
          simp [ser], parseVal_quote,
          parseStrBody_ser s.data (by simpa [wfJson] using hwf) r]
        simp [mk_data]
      | arr xs =>
        cases xs with
        | nil =>
          rw [show ser (Json.arr []) ++ r = '[' :: (']' :: r) from rfl, parseVal_lbracket,
            skipWs_cons_of_not_ws _ (by decide)]
          simp
        | cons x t =>
          rw [show ser (Json.arr (x :: t)) ++ r =
            '[' :: (serItemsL (x :: t) ++ ']' :: r) from by simp [ser], parseVal_lbracket]
          obtain ⟨d, t2, hdt, hnws, hne, -⟩ := ser_shape x
          obtain ⟨u, hu⟩ : ∃ u, serItemsL (x :: t) = d :: u := by
            cases t with
            | nil => exact ⟨t2, by rw [serItemsL_single, hdt]⟩
            | cons y t3 =>
              exact ⟨t2 ++ ',' :: serItemsL (y :: t3), by rw [serItemsL_cons2, hdt]; simp⟩
          have hrw : serItemsL (x :: t) ++ ']' :: r = d :: (u ++ ']' :: r) := by
            rw [hu]
            simp
          rw [hrw, skipWs_cons_of_not_ws _ hnws]
          simp only [if_neg hne]
          rw [← hrw]
          have hitems := (ih f (by omega)).2.1 (x :: t) r (by simpa [wfJson] using hwf)
            (by simp) (by have : jsize (Json.arr (x :: t)) = 1 + jsizeL (x :: t) := rfl; omega)
          rw [hitems]
          rfl
      | obj kvs =>
        cases kvs with
        | nil =>
          rw [show ser (Json.obj []) ++ r = lbrace :: (rbrace :: r) from rfl, parseVal_lbrace,
            skipWs_cons_of_not_ws _ (by decide)]
          simp
        | cons kv t =>
          obtain ⟨k, v⟩ := kv
          rw [show ser (Json.obj ((k, v) :: t)) ++ r =
            lbrace :: (serMemsL ((k, v) :: t) ++ rbrace :: r) from by simp [ser],
            parseVal_lbrace]
          obtain ⟨u, hu⟩ : ∃ u, serMemsL ((k, v) :: t) = '"' :: u := by
            cases t with
            | nil => exact ⟨escStr k.data ++ '"' :: ':' :: ser v, by rw [serMemsL_single]⟩
            | cons m t2 =>
              exact ⟨(escStr k.data ++ '"' :: ':' :: ser v) ++ ',' :: serMemsL (m :: t2),
                by rw [serMemsL_cons2]; simp⟩
          have hrw : serMemsL ((k, v) :: t) ++ rbrace :: r = '"' :: (u ++ rbrace :: r) := by
            rw [hu]
            simp
          rw [hrw, skipWs_cons_of_not_ws _ (by decide)]
          simp only [if_neg (by decide : ¬('"' : Char) = rbrace)]
          rw [← hrw]
          have hmems := (ih f (by omega)).2.2 ((k, v) :: t) r (by simpa [wfJson] using hwf)
            (by simp) (by have : jsize (Json.obj ((k, v) :: t)) = 1 + jsizeM ((k, v) :: t) := rfl
                          omega)
          rw [hmems]
          rfl
    · -- array items
      intro xs r hwf hne hsz
      cases xs with
      | nil => exact absurd rfl hne
      | cons x t =>
        have h1 : 1 ≤ jsizeL (x :: t) := by rw [jsizeL]; omega
        obtain ⟨f, rfl⟩ : ∃ g, F = g + 1 := ⟨F - 1, by omega⟩
        have hszx : jsize x ≤ f := by rw [jsizeL] at hsz; omega
        have hwfx : wfJson x = true := by
          rw [wfL, Bool.and_eq_true] at hwf
          exact hwf.1
        have hwft : wfL t = true := by
          rw [wfL, Bool.and_eq_true] at hwf
          exact hwf.2
        rw [parseItems_succ]
        cases t with
        | nil =>
          have hval := (ih f (by omega)).1 x (']' :: r) hwfx hszx
            (numGuard_any (headNDD_cons _ (by decide) (by decide)))
          rw [show serItemsL [x] ++ ']' :: r = ser x ++ ']' :: r from by simp [serItemsL],
            hval]
          dsimp only
          rw [skipWs_cons_of_not_ws _ (by decide)]
          simp
        | cons y t2 =>
          have hval := (ih f (by omega)).1 x (',' :: (serItemsL (y :: t2) ++ ']' :: r)) hwfx
            hszx (numGuard_any (headNDD_cons _ (by decide) (by decide)))
          rw [show serItemsL (x :: y :: t2) ++ ']' :: r =
            ser x ++ (',' :: (serItemsL (y :: t2) ++ ']' :: r)) from by
              rw [serItemsL_cons]; simp, hval]
          dsimp only
          rw [skipWs_cons_of_not_ws _ (by decide)]
          simp only [if_pos rfl]
          obtain ⟨d, t3, hdt, hnws, -, -⟩ := ser_shape y
          obtain ⟨u, hu⟩ : ∃ u, serItemsL (y :: t2) = d :: u := by
            cases t2 with
            | nil => exact ⟨t3, by rw [serItemsL_single, hdt]⟩
            | cons z t4 =>
              exact ⟨t3 ++ ',' :: serItemsL (z :: t4), by rw [serItemsL_cons2, hdt]; simp⟩
          have hskip : skipWs (serItemsL (y :: t2) ++ ']' :: r) =
              serItemsL (y :: t2) ++ ']' :: r := by
            rw [hu, List.cons_append, skipWs_cons_of_not_ws _ hnws]
          rw [hskip]
          have hrest := (ih f (by omega)).2.1 (y :: t2) r hwft (by simp)
            (by rw [jsizeL] at hsz; omega)
          rw [hrest]
          rfl
    · -- object members
      intro kvs r hwf hne hsz
      cases kvs with
      | nil => exact absurd rfl hne
      | cons kv t =>
        obtain ⟨k, v⟩ := kv
        have h1 : 1 ≤ jsizeM ((k, v) :: t) := by rw [jsizeM]; omega
        obtain ⟨f, rfl⟩ : ∃ g, F = g + 1 := ⟨F - 1, by omega⟩
        have hszv : jsize v ≤ f := by rw [jsizeM] at hsz; omega
        have hwfk : wfStrL k.data = true := by
          rw [wfM, Bool.and_eq_true, Bool.and_eq_true] at hwf
          exact hwf.1.1
        have hwfv : wfJson v = true := by
          rw [wfM, Bool.and_eq_true, Bool.and_eq_true] at hwf
          exact hwf.1.2
        have hwft : wfM t = true := by
          rw [wfM, Bool.and_eq_true, Bool.and_eq_true] at hwf
          exact hwf.2
        rw [parseMems_succ]
        cases t with
        | nil =>
          have hshape : serMemsL [(k, v)] ++ rbrace :: r =
              '"' :: (escStr k.data ++ '"' :: (':' :: (ser v ++ rbrace :: r))) := by
            rw [serMemsL_single]
            simp
          rw [hshape]
          simp only [if_pos rfl]
          rw [parseStrBody_ser k.data hwfk]
          dsimp only
          rw [skipWs_cons_of_not_ws _ (by decide)]
          simp only [if_pos rfl]
          obtain ⟨d, t3, hdt, hnws, -, -⟩ := ser_shape v
          rw [show skipWs (ser v ++ rbrace :: r) = ser v ++ rbrace :: r from by
            rw [hdt, List.cons_append, skipWs_cons_of_not_ws _ hnws]]
          have hval := (ih f (by omega)).1 v (rbrace :: r) hwfv hszv
            (numGuard_any (headNDD_cons _ (by decide) (by decide)))
          rw [hval]
          dsimp only
          rw [skipWs_cons_of_not_ws _ (by decide)]
          simp only [if_neg (by decide : ¬(rbrace : Char) = ','), if_pos rfl]
          simp [mk_data]
        | cons m2 t2 =>
          have hshape : serMemsL ((k, v) :: m2 :: t2) ++ rbrace :: r =
              '"' :: (escStr k.data ++ '"' :: (':' :: (ser v ++
                (',' :: (serMemsL (m2 :: t2) ++ rbrace :: r))))) := by
            rw [serMemsL_cons2]
            simp
          rw [hshape]
          simp only [if_pos rfl]
          rw [parseStrBody_ser k.data hwfk]
          dsimp only
          rw [skipWs_cons_of_not_ws _ (by decide)]
          simp only [if_pos rfl]
          obtain ⟨d, t3, hdt, hnws, -, -⟩ := ser_shape v
          rw [show skipWs (ser v ++ ',' :: (serMemsL (m2 :: t2) ++ rbrace :: r)) =
              ser v ++ ',' :: (serMemsL (m2 :: t2) ++ rbrace :: r) from by
            rw [hdt, List.cons_append, skipWs_cons_of_not_ws _ hnws]]
          have hval := (ih f (by omega)).1 v (',' :: (serMemsL (m2 :: t2) ++ rbrace :: r))
            hwfv hszv (numGuard_any (headNDD_cons _ (by decide) (by decide)))
          rw [hval]
          dsimp only
          rw [skipWs_cons_of_not_ws _ (by decide)]
          simp only [if_pos rfl]
          obtain ⟨k2, v2⟩ := m2
          obtain ⟨u2, hu2⟩ : ∃ u2, serMemsL ((k2, v2) :: t2) = '"' :: u2 := by
            cases t2 with
            | nil => exact ⟨escStr k2.data ++ '"' :: ':' :: ser v2, by rw [serMemsL_single]⟩
            | cons m3 t3b =>
              exact ⟨(escStr k2.data ++ '"' :: ':' :: ser v2) ++ ',' :: serMemsL (m3 :: t3b),
                by rw [serMemsL_cons2]; simp⟩
          have hskip2 : skipWs (serMemsL ((k2, v2) :: t2) ++ rbrace :: r) =
              serMemsL ((k2, v2) :: t2) ++ rbrace :: r := by
            rw [hu2, List.cons_append, skipWs_cons_of_not_ws _ (by decide)]
          rw [hskip2]
          have hrest := (ih f (by omega)).2.2 ((k2, v2) :: t2) r hwft (by simp)
            (by rw [jsizeM] at hsz; omega)
          rw [hrest]
          simp [mk_data]

/-! ## Top-level parse of a serialised value -/

theorem jsonParseList_ser (v : Json) (hwf : wfJson v = true) :
    jsonParseList (ser v) = some v := by
  rw [jsonParseList]
  obtain ⟨d, t, hdt, hnws, -, -⟩ := ser_shape v
  have hskip : skipWs (ser v) = ser v := by rw [hdt, skipWs_cons_of_not_ws _ hnws]
  rw [hskip]
  have hfuel : jsize v ≤ (ser v).length + 1 := by
    have := jsize_le_serLen (jsize v) v le_rfl
    omega
  have hval := (parse_ser_all ((ser v).length + 1)).1 v [] hwf hfuel
    (numGuard_any fun c hc => by cases hc)
  rw [show ser v ++ ([] : List Char) = ser v from by simp] at hval
  rw [hval]
  rfl

/-! ## Behaviour of the search pattern on span-shaped text -/

theorem matchAlt1_not_bracket {c : Char} (t : List Char) (h : c ≠ '[') :
    matchAlt1 (c :: t) = none := by
  rw [matchAlt1, if_neg h]

theorem matchAlt2_not_brace {c : Char} (t : List Char) (h : c ≠ lbrace) :
    matchAlt2 (c :: t) = none := by
  rw [matchAlt2, if_neg h]

theorem findJsonMatch_cons_skip {c : Char} (t : List Char) (h1 : c ≠ '[') (h2 : c ≠ lbrace) :
    findJsonMatch (c :: t) = findJsonMatch t := by
  rw [findJsonMatch, matchAlt1_not_bracket t h1, matchAlt2_not_brace t h2]

theorem findJsonMatch_skip_all {p : List Char} (h : ∀ c ∈ p, c ≠ '[' ∧ c ≠ lbrace) :
    ∀ s, findJsonMatch (p ++ s) = findJsonMatch s := by
  induction p with
  | nil => intro s; rfl
  | cons c t ih =>
    intro s
    rw [List.cons_append, findJsonMatch_cons_skip _ (h c (by simp)).1 (h c (by simp)).2]
    exact ih (fun d hd => h d (by simp [hd])) s

theorem findJsonMatch_alt1 {s m : List Char} (hs : s ≠ []) (h : matchAlt1 s = some m) :
    findJsonMatch s = some m := by
  match s with
  | [] => exact absurd rfl hs
  | c :: t => rw [findJsonMatch, h]

theorem greedyTail_none {a b : Char} : ∀ {s : List Char}, a ∉ s → greedyTail a b s = none := by
  intro s
  induction s with
  | nil => intro _; rfl
  | cons c t ih =>
    intro h
    rw [greedyTail, ih (fun hm => h (by simp [hm]))]
    rw [if_neg (by intro hc; exact h (by simp [hc.symm]))]

theorem greedyTail_last {a b : Char} (hab : a ≠ b) (hbw : isReWs b = false) :
    ∀ (x y : List Char), a ∉ y →
      greedyTail a b (x ++ a :: b :: y) = some (x ++ [a, b], y) := by
  intro x
  induction x with
  | nil =>
    intro y hy
    have hnone : greedyTail a b (b :: y) = none := by
      apply greedyTail_none
      intro hm
      rcases List.mem_cons.mp hm with h1 | h1
      · exact hab h1
      · exact hy h1
    have hws : wsThen b (b :: y) = some ([b], y) := by
      rw [wsThen, List.dropWhile_cons, if_neg (by rw [hbw]; simp)]
      dsimp only
      rw [if_pos rfl, List.takeWhile_cons, if_neg (by rw [hbw]; simp)]
      rfl
    rw [List.nil_append, greedyTail, hnone]
    dsimp only
    rw [if_pos rfl, hws]
    rfl
  | cons c x ih =>
    intro y hy
    rw [List.cons_append, greedyTail, ih y hy]
    simp

theorem matchAlt1_span (body p2 : List Char) (h : rbrace ∉ p2) :
    matchAlt1 ('[' :: lbrace :: (body ++ rbrace :: ']' :: p2)) =
      some ('[' :: lbrace :: (body ++ [rbrace, ']'])) := by
  have hdw : (lbrace :: (body ++ rbrace :: ']' :: p2)).dropWhile isReWs =
      lbrace :: (body ++ rbrace :: ']' :: p2) := by
    rw [List.dropWhile_cons, if_neg (by decide)]
  have htw : (lbrace :: (body ++ rbrace :: ']' :: p2)).takeWhile isReWs = [] := by
    rw [List.takeWhile_cons, if_neg (by decide)]
  have hg : greedyTail rbrace ']' (body ++ rbrace :: ']' :: p2) =
      some (body ++ [rbrace, ']'], p2) :=
    greedyTail_last (by decide) (by decide) body p2 h
  rw [matchAlt1, if_pos rfl, hdw]
  dsimp only
  rw [if_pos rfl, hg]
  dsimp only
  rw [htw]
  rfl

theorem findJsonMatch_span (p0 body p2 : List Char)
    (h0 : ∀ c ∈ p0, c ≠ '[' ∧ c ≠ lbrace) (h2 : rbrace ∉ p2) :
    findJsonMatch (p0 ++ ('[' :: lbrace :: (body ++ rbrace :: ']' :: p2))) =
      some ('[' :: lbrace :: (body ++ [rbrace, ']'])) := by
  rw [findJsonMatch_skip_all h0]
  exact findJsonMatch_alt1 (by simp) (matchAlt1_span body p2 h2)

theorem serItemsL_obj_shape : ∀ xs : List Json, xs ≠ [] → xs.all isObjB = true →
    ∃ mid, serItemsL xs = lbrace :: (mid ++ [rbrace]) := by
  intro xs
  induction xs with
  | nil => intro h; exact absurd rfl h
  | cons x t ih =>
    intro _ hall
    have hx : isObjB x = true := by
      simp [List.all_cons] at hall
      exact hall.1
    obtain ⟨kvs, rfl⟩ : ∃ kvs, x = Json.obj kvs := by
      cases x <;> simp [isObjB] at hx
      exact ⟨_, rfl⟩
    cases t with
    | nil =>
      refine ⟨serMemsL kvs, ?_⟩
      rw [serItemsL_single]
      rfl
    | cons y t2 =>
      obtain ⟨mid2, hmid2⟩ := ih (by simp) (by
        simp [List.all_cons] at hall ⊢
        exact hall.2)
      refine ⟨serMemsL kvs ++ [rbrace] ++ ',' :: lbrace :: mid2, ?_⟩
      rw [serItemsL_cons2, hmid2]
      simp [ser]

theorem serArr_obj_shape (xs : List Json) (hne : xs ≠ []) (hobj : xs.all isObjB = true) :
    ∃ body, ser (Json.arr xs) = '[' :: lbrace :: (body ++ [rbrace, ']']) := by
  obtain ⟨mid, hmid⟩ := serItemsL_obj_shape xs hne hobj
  refine ⟨mid, ?_⟩
  rw [show ser (Json.arr xs) = '[' :: serItemsL xs ++ [']'] from rfl, hmid]
  simp

/-- C7 is false as stated: with arbitrary prose, a bracketed fragment in
the leading prose starts the (greedy) match early, the captured span is
not valid JSON, and extraction hard-fails instead of recovering the
serialised product array. -/
theorem c7_counterexample :
    extractCore ("See [ \x7b1\x7d ] then ".toList ++
      ser (Json.arr [Json.obj [("provider", Json.str "A")]]) ++ " end".toList) =
      Except.error decodeFailMsg := rfl

/-- C7 (amended): for every nonempty well-formed array of product
objects serialised to JSON and embedded in a raw text whose leading
prose contains no `[` or `{` and whose trailing prose contains no `}`,
extraction recovers exactly the original array. -/
theorem c7_roundtrip (xs : List Json) (p1 p2 : List Char)
    (hne : xs ≠ []) (hobj : xs.all isObjB = true) (hwf : wfJson (Json.arr xs) = true)
    (hp1 : ∀ c ∈ p1, c ≠ '[' ∧ c ≠ lbrace) (hp2 : rbrace ∉ p2) :
    extractCore (p1 ++ ser (Json.arr xs) ++ p2) = Except.ok (Json.arr xs) := by
  obtain ⟨body, hb⟩ := serArr_obj_shape xs hne hobj
  have hraw : p1 ++ ser (Json.arr xs) ++ p2 =
      p1 ++ ('[' :: lbrace :: (body ++ rbrace :: ']' :: p2)) := by
    rw [hb]
    simp
  have hfind : findJsonMatch (p1 ++ ser (Json.arr xs) ++ p2) = some (ser (Json.arr xs)) := by
    rw [hraw, findJsonMatch_span p1 body p2 hp1 hp2, hb]
  rw [extractCore, hfind]
  dsimp only
  rw [jsonParseList_ser _ hwf]
  rfl

theorem c7_witness :
    (([Json.obj [("provider", Json.str "A")]] : List Json) ≠ [] ∧
      ([Json.obj [("provider", Json.str "A")]].all isObjB = true) ∧
      wfJson (Json.arr [Json.obj [("provider", Json.str "A")]]) = true ∧
      (∀ c ∈ "Result: ".toList, c ≠ '[' ∧ c ≠ lbrace) ∧
      rbrace ∉ " done".toList) ∧
    extractCore ("Result: ".toList ++ ser (Json.arr [Json.obj [("provider", Json.str "A")]])
      ++ " done".toList) = Except.ok (Json.arr [Json.obj [("provider", Json.str "A")]]) :=
  ⟨⟨by simp, by decide, by decide, by decide, by decide⟩,
    c7_roundtrip [Json.obj [("provider", Json.str "A")]] "Result: ".toList " done".toList
      (by simp) (by decide) (by decide) (by decide) (by decide)⟩

/-! ## C9: prose around an empty array defeats both extraction attempts -/

theorem matchAlt1_bracket_rbracket (p2 : List Char) :
    matchAlt1 ('[' :: ']' :: p2) = none := by
  rw [matchAlt1, if_pos rfl, List.dropWhile_cons, if_neg (by decide)]
  dsimp only
  rw [if_neg (by decide)]

theorem c9_findJsonMatch (p1 p2 : List Char)
    (h1 : ∀ c ∈ p1, c ≠ '[' ∧ c ≠ lbrace)
    (h2 : ∀ c ∈ p2, c ≠ '[' ∧ c ≠ lbrace) :
    findJsonMatch (p1 ++ '[' :: ']' :: p2) = none := by
  rw [findJsonMatch_skip_all h1, findJsonMatch,
    matchAlt1_bracket_rbracket, matchAlt2_not_brace _ (by decide)]
  dsimp only
  rw [findJsonMatch_cons_skip _ (by decide) (by decide),
    show p2 = p2 ++ ([] : List Char) from by simp, findJsonMatch_skip_all h2]
  rfl

theorem digitRunAux_consumed : ∀ (s : List Char) (acc len v l : Nat) (r : List Char),
    digitRunAux s acc len = (v, l, r) →
      ∃ pre, s = pre ++ r ∧ ∀ c ∈ pre, isDigit c = true := by
  intro s
  induction s with
  | nil =>
    intro acc len v l r h
    rw [digitRunAux] at h
    simp only [Prod.mk.injEq] at h
    obtain ⟨-, -, hr⟩ := h
    exact ⟨[], by rw [← hr]; rfl, by simp⟩
  | cons c t ih =>
    intro acc len v l r h
    rw [digitRunAux] at h
    by_cases hc : isDigit c
    · rw [if_pos hc] at h
      obtain ⟨pre, hp1, hp2⟩ := ih _ _ _ _ _ h
      refine ⟨c :: pre, by rw [List.cons_append, ← hp1], ?_⟩
      intro d hd
      rcases List.mem_cons.mp hd with rfl | hdm
      · exact hc
      · exact hp2 d hdm
    · rw [if_neg hc] at h
      simp only [Prod.mk.injEq] at h
      obtain ⟨-, -, hr⟩ := h
      exact ⟨[], by rw [← hr]; rfl, by simp⟩

theorem parseIntPart_consumed {s r : List Char} {n : Nat}
    (h : parseIntPart s = some (n, r)) :
    ∃ pre, s = pre ++ r ∧ ∀ c ∈ pre, isDigit c = true := by
  match s, h with
  | c :: t, h =>
    rw [parseIntPart] at h
    by_cases h0 : c = '0'
    · rw [if_pos h0] at h
      have h2 := Option.some.inj h
      simp only [Prod.mk.injEq] at h2
      obtain ⟨-, hr⟩ := h2
      exact ⟨[c], by rw [hr]; rfl, by intro d hd; simp at hd; rw [hd, h0]; decide⟩
    · rw [if_neg h0] at h
      by_cases hc : isDigit c
      · rw [if_pos hc] at h
        cases hda : digitRunAux t (digitVal c) 1 with
        | mk v2 p2 =>
          obtain ⟨l2, r2⟩ := p2
          rw [hda] at h
          dsimp only at h
          have h2 := Option.some.inj h
          simp only [Prod.mk.injEq] at h2
          obtain ⟨-, hr⟩ := h2
          obtain ⟨pre, hp1, hp2⟩ := digitRunAux_consumed t _ _ _ _ _ hda
          refine ⟨c :: pre, by rw [List.cons_append, ← hr, ← hp1], ?_⟩
          intro d hd
          rcases List.mem_cons.mp hd with rfl | hdm
          · exact hc
          · exact hp2 d hdm
      · rw [if_neg hc] at h
        cases h

theorem lexUNum_consumed {s r : List Char} {n e : Nat}
    (h : lexUNum s = some (n, e, r)) :
    ∃ pre, s = pre ++ r ∧ ∀ c ∈ pre, isDigit c = true ∨ c = '.' := by
  rw [lexUNum] at h
  cases hip : parseIntPart s with
  | none => rw [hip] at h; cases h
  | some p =>
    obtain ⟨n1, r1⟩ := p
    rw [hip] at h
    dsimp only at h
    obtain ⟨pre1, hp1, hd1⟩ := parseIntPart_consumed hip
    match r1, h with
    | [], h =>
      dsimp only at h
      have h2 := Option.some.inj h
      simp only [Prod.mk.injEq] at h2
      obtain ⟨-, -, hr⟩ := h2
      exact ⟨pre1, by rw [← hr]; exact hp1, fun c hc => Or.inl (hd1 c hc)⟩
    | c1 :: r2, h =>
      dsimp only at h
      by_cases hdot : c1 = '.'
      · rw [if_pos hdot] at h
        cases hda : digitRunAux r2 0 0 with
        | mk v2 p2 =>
          obtain ⟨l2, r3⟩ := p2
          rw [hda] at h
          dsimp only at h
          by_cases hl0 : l2 = 0
          · rw [if_pos hl0] at h; cases h
          · rw [if_neg hl0] at h
            obtain ⟨pre2, hp2, hd2⟩ := digitRunAux_consumed r2 _ _ _ _ _ hda
            have h2 := Option.some.inj h
            simp only [Prod.mk.injEq] at h2
            have hr : r3 = r := h2.2.2
            refine ⟨pre1 ++ c1 :: pre2, ?_, ?_⟩
            · rw [hp1, hp2, ← hr]
              simp
            · intro c hc
              rcases List.mem_append.mp hc with hin | hin
              · exact Or.inl (hd1 c hin)
              · rcases List.mem_cons.mp hin with rfl | hin2
                · exact Or.inr hdot
                · exact Or.inl (hd2 c hin2)
      · rw [if_neg hdot] at h
        have h2 := Option.some.inj h
        simp only [Prod.mk.injEq] at h2
        have hr : c1 :: r2 = r := h2.2.2
        exact ⟨pre1, by rw [← hr]; exact hp1, fun c hc => Or.inl (hd1 c hc)⟩

theorem lexNum_consumed {s r : List Char} {j : Json}
    (h : lexNum s = some (j, r)) :
    ∃ pre, s = pre ++ r ∧ ∀ c ∈ pre, isDigit c = true ∨ c = '.' ∨ c = '-' := by
  match s, h with
  | c :: t, h =>
    rw [lexNum] at h
    by_cases hm : c = '-'
    · rw [if_pos hm] at h
      cases hu : lexUNum t with
      | none => rw [hu] at h; cases h
      | some p =>
        obtain ⟨n1, e1, r1⟩ := p
        rw [hu] at h
        dsimp only at h
        have h3 := Option.some.inj h
        simp only [Prod.mk.injEq] at h3
        have hr : r1 = r := h3.2
        obtain ⟨pre, hp1, hd1⟩ := lexUNum_consumed hu
        refine ⟨c :: pre, by rw [← hr, List.cons_append, ← hp1], ?_⟩
        intro d hd
        rcases List.mem_cons.mp hd with rfl | hdm
        · exact Or.inr (Or.inr hm)
        · rcases hd1 d hdm with h1 | h1
          · exact Or.inl h1
          · exact Or.inr (Or.inl h1)
    · rw [if_neg hm] at h
      cases hu : lexUNum (c :: t) with
      | none => rw [hu] at h; cases h
      | some p =>
        obtain ⟨n1, e1, r1⟩ := p
        rw [hu] at h
        dsimp only at h
        have h3 := Option.some.inj h
        simp only [Prod.mk.injEq] at h3
        have hr : r1 = r := h3.2
        obtain ⟨pre, hp1, hd1⟩ := lexUNum_consumed hu
        refine ⟨pre, by rw [← hr]; exact hp1, ?_⟩
        intro d hd
        rcases hd1 d hd with h1 | h1
        · exact Or.inl h1
        · exact Or.inr (Or.inl h1)

theorem parseVal_consumed_scalar (F : Nat) (c : Char) (t : List Char)
    (h1 : c ≠ '"') (h2 : c ≠ '[') (h3 : c ≠ lbrace) :
    parseVal F (c :: t) = none ∨
      ∃ v pre r, parseVal F (c :: t) = some (v, r) ∧ c :: t = pre ++ r ∧ '[' ∉ pre := by
  match F with
  | 0 => exact Or.inl rfl
  | F + 1 =>
    by_cases ht : c = 't'
    · subst ht
      rw [parseVal_true]
      cases he : expectLit ['r', 'u', 'e'] t with
      | none => exact Or.inl rfl
      | some r2 =>
        refine Or.inr ⟨Json.bool true, ['t', 'r', 'u', 'e'], r2, rfl, ?_, by decide⟩
        rw [expectLit_eq he]
        rfl
    · by_cases hf : c = 'f'
      · subst hf
        rw [parseVal_false]
        cases he : expectLit ['a', 'l', 's', 'e'] t with
        | none => exact Or.inl rfl
        | some r2 =>
          refine Or.inr ⟨Json.bool false, ['f', 'a', 'l', 's', 'e'], r2, rfl, ?_, by decide⟩
          rw [expectLit_eq he]
          rfl
      · by_cases hn : c = 'n'
        · subst hn
          rw [parseVal_null]
          cases he : expectLit ['u', 'l', 'l'] t with
          | none => exact Or.inl rfl
          | some r2 =>
            refine Or.inr ⟨Json.null, ['n', 'u', 'l', 'l'], r2, rfl, ?_, by decide⟩
            rw [expectLit_eq he]
            rfl
        · by_cases hnum : c = '-' ∨ isDigit c = true
          · rw [parseVal_numhead F c t hnum]
            cases hl : lexNum (c :: t) with
            | none => exact Or.inl rfl
            | some p =>
              obtain ⟨v, r⟩ := p
              obtain ⟨pre, hp1, hd1⟩ := lexNum_consumed hl
              refine Or.inr ⟨v, pre, r, rfl, hp1, ?_⟩
              intro hbr
              rcases hd1 '[' hbr with hx | hx | hx
              · exact absurd hx (by decide)
              · exact absurd hx (by decide)
              · exact absurd hx (by decide)
          · left
            push_neg at hnum
            rw [parseVal.eq_def]
            simp [h1, h2, h3, ht, hf, hn, hnum.1, hnum.2]

theorem ws_split (p : List Char) : (∀ c ∈ p, isJsonWs c = true) ∨
    ∃ w c u, p = w ++ c :: u ∧ (∀ d ∈ w, isJsonWs d = true) ∧ isJsonWs c = false := by
  induction p with
  | nil => left; simp
  | cons c t ih =>
    by_cases hc : isJsonWs c
    · rcases ih with hall | ⟨w, d, u, rfl, hw, hd⟩
      · left
        intro d hd
        rcases List.mem_cons.mp hd with rfl | hdm
        · exact hc
        · exact hall d hdm
      · right
        refine ⟨c :: w, d, u, rfl, ?_, hd⟩
        intro e he
        rcases List.mem_cons.mp he with rfl | hem
        · exact hc
        · exact hw e hem
    · right
      exact ⟨[], c, t, rfl, by simp, by simpa using hc⟩

theorem c9_parse_none (p1 p2 : List Char)
    (h1 : ∀ c ∈ p1, c ≠ '"' ∧ c ≠ '[' ∧ c ≠ lbrace)
    (hnw : ∃ c, (c ∈ p1 ∨ c ∈ p2) ∧ isJsonWs c = false) :
    jsonParseList (p1 ++ '[' :: ']' :: p2) = none := by
  rw [jsonParseList]
  rcases ws_split p1 with hallws | ⟨w, c, u, hp1eq, hw, hcz⟩
  · rw [skipWs_all_ws hallws, skipWs_cons_of_not_ws _ (by decide), parseVal_lbracket,
      skipWs_cons_of_not_ws _ (by decide)]
    dsimp only
    rw [if_pos rfl]
    dsimp only
    have hp2 : ∃ c ∈ p2, isJsonWs c = false := by
      obtain ⟨c, hc, hcw⟩ := hnw
      rcases hc with hin | hin
      · rw [hallws c hin] at hcw
        cases hcw
      · exact ⟨c, hin, hcw⟩
    rw [if_neg (skipWs_ne_nil hp2)]
  · rw [hp1eq, show (w ++ c :: u) ++ '[' :: ']' :: p2 =
      w ++ (c :: (u ++ '[' :: ']' :: p2)) from by simp,
      skipWs_all_ws hw, skipWs_cons_of_not_ws _ hcz]
    have hc := h1 c (by rw [hp1eq]; simp)
    rcases parseVal_consumed_scalar ((w ++ c :: (u ++ '[' :: ']' :: p2)).length + 1) c
      (u ++ '[' :: ']' :: p2) hc.1 hc.2.1 hc.2.2 with hnone | ⟨v, pre, r, hsome, heq, hnb⟩
    · rw [hnone]
    · rw [hsome]
      dsimp only
      have hbr : '[' ∈ r := by
        have hin : '[' ∈ c :: (u ++ '[' :: ']' :: p2) := by simp
        rw [heq] at hin
        rcases List.mem_append.mp hin with hin2 | hin2
        · exact absurd hin2 hnb
        · exact hin2
      rw [if_neg (skipWs_ne_nil ⟨'[', hbr, by decide⟩)]

/-- C9: the pattern's array alternative requires `{` right after `[`, so
prose (no structural characters, at least one non-whitespace character)
around the empty JSON array `[]` matches no substring; the whole-text
parse then fails on the prose, and extraction takes the hard-failure
path — an empty result with the parse diagnostic — rather than
returning zero products.  The same holds on the specification-shaped
concrete input with an array of scalars. -/
theorem c9_empty_array_hard_failure (p1 p2 : List Char)
    (h1 : ∀ c ∈ p1, c ≠ '"' ∧ c ≠ '[' ∧ c ≠ ']' ∧ c ≠ lbrace ∧ c ≠ rbrace)
    (h2 : ∀ c ∈ p2, c ≠ '"' ∧ c ≠ '[' ∧ c ≠ ']' ∧ c ≠ lbrace ∧ c ≠ rbrace)
    (hnw : ∃ c, (c ∈ p1 ∨ c ∈ p2) ∧ isJsonWs c = false) :
    findJsonMatch (p1 ++ '[' :: ']' :: p2) = none ∧
    jsonParseList (p1 ++ '[' :: ']' :: p2) = none ∧
    extractCore (p1 ++ '[' :: ']' :: p2) = Except.error decodeFailMsg ∧
    searchAndAnalyzeProducts (Except.ok (String.mk (p1 ++ '[' :: ']' :: p2))) =
      (Json.arr [], some (parseFailPrefix ++ decodeFailMsg)) ∧
    extractJson "The data: [1, 2, 3] end" = Except.error decodeFailMsg := by
  have hfind := c9_findJsonMatch p1 p2
    (fun c hcm => ⟨(h1 c hcm).2.1, (h1 c hcm).2.2.2.1⟩)
    (fun c hcm => ⟨(h2 c hcm).2.1, (h2 c hcm).2.2.2.1⟩)
  have hparse := c9_parse_none p1 p2
    (fun c hcm => ⟨(h1 c hcm).1, (h1 c hcm).2.1, (h1 c hcm).2.2.2.1⟩) hnw
  have hext : extractCore (p1 ++ '[' :: ']' :: p2) = Except.error decodeFailMsg := by
    rw [extractCore, hfind]
    dsimp only
    rw [hparse]
  refine ⟨hfind, hparse, hext, ?_, rfl⟩
  rw [searchAndAnalyzeProducts]
  rw [show extractJson (String.mk (p1 ++ '[' :: ']' :: p2)) =
    extractCore (p1 ++ '[' :: ']' :: p2) from rfl, hext]

theorem c9_witness :
    ((∀ c ∈ "Note: ".toList, c ≠ '"' ∧ c ≠ '[' ∧ c ≠ ']' ∧ c ≠ lbrace ∧ c ≠ rbrace) ∧
      (∀ c ∈ " end.".toList, c ≠ '"' ∧ c ≠ '[' ∧ c ≠ ']' ∧ c ≠ lbrace ∧ c ≠ rbrace) ∧
      (∃ c, (c ∈ "Note: ".toList ∨ c ∈ " end.".toList) ∧ isJsonWs c = false)) ∧
    extractCore ("Note: ".toList ++ '[' :: ']' :: " end.".toList) =
      Except.error decodeFailMsg :=
  ⟨⟨by decide, by decide, ⟨'N', by simp, by decide⟩⟩,
    (c9_empty_array_hard_failure "Note: ".toList " end.".toList (by decide) (by decide)
      ⟨'N', by simp, by decide⟩).2.2.1⟩

/-! ## C10: the greedy match spans from the first array to the last close -/

/-- C10: with two serialised arrays of product objects separated (and
surrounded) by prose — no `[`/`{` before the first array, no `}` after
the second — the single captured substring runs from the start of the
first array to the end of the second, and extraction succeeds exactly
when that combined span parses as JSON. -/
theorem c10_greedy_span (xs ys : List Json) (p0 p1 p2 : List Char)
    (hx : xs ≠ []) (hxo : xs.all isObjB = true)
    (hy : ys ≠ []) (hyo : ys.all isObjB = true)
    (h0 : ∀ c ∈ p0, c ≠ '[' ∧ c ≠ lbrace) (h2 : rbrace ∉ p2) :
    findJsonMatch (p0 ++ (ser (Json.arr xs) ++ p1 ++ ser (Json.arr ys)) ++ p2) =
      some (ser (Json.arr xs) ++ p1 ++ ser (Json.arr ys)) ∧
    (isOkB (extractCore (p0 ++ (ser (Json.arr xs) ++ p1 ++ ser (Json.arr ys)) ++ p2)) =
      true ↔
      (jsonParseList (ser (Json.arr xs) ++ p1 ++ ser (Json.arr ys))).isSome = true) := by
  obtain ⟨b1, hb1⟩ := serArr_obj_shape xs hx hxo
  obtain ⟨b2, hb2⟩ := serArr_obj_shape ys hy hyo
  have hraw : p0 ++ (ser (Json.arr xs) ++ p1 ++ ser (Json.arr ys)) ++ p2 =
      p0 ++ ('[' :: lbrace :: (((b1 ++ [rbrace, ']']) ++ p1 ++ '[' :: lbrace :: b2) ++
        rbrace :: ']' :: p2)) := by
    rw [hb1, hb2]
    simp
  have hspan : '[' :: lbrace :: ((((b1 ++ [rbrace, ']']) ++ p1 ++ '[' :: lbrace :: b2)) ++
      [rbrace, ']']) = ser (Json.arr xs) ++ p1 ++ ser (Json.arr ys) := by
    rw [hb1, hb2]
    simp
  have hfind : findJsonMatch (p0 ++ (ser (Json.arr xs) ++ p1 ++ ser (Json.arr ys)) ++ p2) =
      some (ser (Json.arr xs) ++ p1 ++ ser (Json.arr ys)) := by
    rw [hraw, findJsonMatch_span p0 _ p2 h0 h2, hspan]
  refine ⟨hfind, ?_⟩
  rw [extractCore, hfind]
  cases hjp : jsonParseList (ser (Json.arr xs) ++ p1 ++ ser (Json.arr ys)) with
  | none =>
    simp only [List.append_assoc] at hjp
    simp [isOkB, hjp]
  | some v =>
    simp only [List.append_assoc] at hjp
    simp [isOkB, hjp]

theorem c10_witness :
    (([Json.obj [("a", Json.num 1 0)]] : List Json) ≠ [] ∧
      [Json.obj [("a", Json.num 1 0)]].all isObjB = true ∧
      ([Json.obj [("b", Json.num 2 0)]] : List Json) ≠ [] ∧
      [Json.obj [("b", Json.num 2 0)]].all isObjB = true ∧
      (∀ c ∈ "x ".toList, c ≠ '[' ∧ c ≠ lbrace) ∧
      rbrace ∉ " y.".toList) ∧
    findJsonMatch ("x ".toList ++ (ser (Json.arr [Json.obj [("a", Json.num 1 0)]]) ++
        " and ".toList ++ ser (Json.arr [Json.obj [("b", Json.num 2 0)]])) ++ " y.".toList) =
      some (ser (Json.arr [Json.obj [("a", Json.num 1 0)]]) ++ " and ".toList ++
        ser (Json.arr [Json.obj [("b", Json.num 2 0)]])) :=
  ⟨⟨by simp, by decide, by simp, by decide, by decide, by decide⟩,
    (c10_greedy_span [Json.obj [("a", Json.num 1 0)]] [Json.obj [("b", Json.num 2 0)]]
      "x ".toList " and ".toList " y.".toList (by simp) (by decide) (by simp) (by decide)
      (by decide) (by decide)).1⟩

end Claims

end PriceSearch
